import Mathlib

/-!
Verification development for the ThingsBoard device-telemetry migrator
(`import_export_tool.py`).

The program is shallowly embedded: Python scalar values become the
inductive type `PyVal`; Python floats are modelled as exact decimal
numbers (a signed mantissa together with a power-of-ten scale) — IEEE
rounding is not modelled, which is harmless for the round-trip
properties because Python's float repr round-trips exactly; stateful
code (the CSV writer, the remote REST client) becomes explicit event
traces over an abstract `Client` record; exceptions become `Except` /
`Option` results.  All definitions follow the source line by line and
are executable, so concrete witnesses evaluate by `rfl` or `decide`.
-/

namespace TbMigrator

/-! ## Characters and digit strings -/

def isSpaceCh (c : Char) : Bool :=
  c = ' ' ∨ c = '\t' ∨ c = '\n' ∨ c = '\r' ∨ c = '\x0b' ∨ c = '\x0c'

def isDigitCh (c : Char) : Bool :=
  c = '0' ∨ c = '1' ∨ c = '2' ∨ c = '3' ∨ c = '4' ∨
  c = '5' ∨ c = '6' ∨ c = '7' ∨ c = '8' ∨ c = '9'

/-- The decimal digit character for `d % 10`. -/
def digitCh (d : Nat) : Char :=
  match d % 10 with
  | 0 => '0' | 1 => '1' | 2 => '2' | 3 => '3' | 4 => '4'
  | 5 => '5' | 6 => '6' | 7 => '7' | 8 => '8' | _ => '9'

/-- Numeric value of a digit character. -/
def digitVal (c : Char) : Nat :=
  if c = '0' then 0 else if c = '1' then 1 else if c = '2' then 2
  else if c = '3' then 3 else if c = '4' then 4 else if c = '5' then 5
  else if c = '6' then 6 else if c = '7' then 7 else if c = '8' then 8
  else 9

/-- Value of a most-significant-digit-first digit list. -/
def digitsVal (cs : List Char) : Nat :=
  cs.foldl (fun a c => 10 * a + digitVal c) 0

/-- Decimal rendering of a natural number, fuel-structural so that it
reduces definitionally. -/
def natToDigitsGo : Nat → Nat → List Char → List Char
  | 0, _, acc => acc
  | fuel + 1, n, acc =>
    if n < 10 then digitCh n :: acc
    else natToDigitsGo fuel (n / 10) (digitCh (n % 10) :: acc)

def natToDigits (n : Nat) : List Char := natToDigitsGo (n + 1) n []

theorem digitVal_digitCh (d : Nat) (h : d < 10) : digitVal (digitCh d) = d := by
  interval_cases d <;> rfl

theorem isDigitCh_digitCh (d : Nat) : isDigitCh (digitCh d) = true := by
  have h : d % 10 < 10 := Nat.mod_lt _ (by norm_num)
  unfold digitCh
  generalize d % 10 = m at h
  interval_cases m <;> rfl

theorem digitsValGo_append (cs : List Char) (a : Nat) :
    List.foldl (fun a c => 10 * a + digitVal c) a cs =
      a * 10 ^ cs.length + digitsVal cs := by
  induction cs generalizing a with
  | nil => simp [digitsVal]
  | cons c cs ih =>
    simp only [List.foldl_cons, digitsVal] at *
    rw [ih (10 * a + digitVal c), ih (10 * 0 + digitVal c)]
    simp [List.length_cons, pow_succ]
    ring

theorem natToDigitsGo_eq (n : Nat) : ∀ (fuel : Nat) (acc : List Char),
    n < fuel → natToDigitsGo fuel n acc = natToDigits n ++ acc := by
  induction n using Nat.strong_induction_on with
  | _ n ih =>
    intro fuel acc h
    match fuel, h with
    | fuel + 1, h =>
      by_cases h10 : n < 10
      · simp [natToDigitsGo, natToDigits, h10]
      · have hd : n / 10 < n := Nat.div_lt_self (by omega) (by norm_num)
        have hf : n / 10 < fuel := lt_of_lt_of_le hd (Nat.lt_succ_iff.mp h)
        have hn : n / 10 < n := hd
        simp only [natToDigitsGo, h10, if_false]
        rw [ih (n / 10) hd fuel _ hf]
        have : natToDigits n = natToDigits (n / 10) ++ [digitCh (n % 10)] := by
          unfold natToDigits
          simp only [natToDigitsGo, h10, if_false]
          exact ih (n / 10) hd n _ (by omega)
        rw [this, List.append_assoc]
        rfl

theorem natToDigits_step (n : Nat) (h : ¬ n < 10) :
    natToDigits n = natToDigits (n / 10) ++ [digitCh (n % 10)] := by
  unfold natToDigits
  simp only [natToDigitsGo, h, if_false]
  exact natToDigitsGo_eq (n / 10) n _ (by
    have := Nat.div_lt_self (show 0 < n by omega) (show 1 < 10 by norm_num)
    omega)

theorem digitsVal_natToDigits (n : Nat) : digitsVal (natToDigits n) = n := by
  induction n using Nat.strong_induction_on with
  | _ n ih =>
    by_cases h10 : n < 10
    · have : natToDigits n = [digitCh n] := by simp [natToDigits, natToDigitsGo, h10]
      rw [this]
      have : digitCh n = digitCh (n % 10) := by rw [Nat.mod_eq_of_lt h10]
      simp [digitsVal, digitVal_digitCh n h10]
    · rw [natToDigits_step n h10]
      have hd : n / 10 < n := Nat.div_lt_self (by omega) (by norm_num)
      simp only [digitsVal, List.foldl_append, List.foldl_cons, List.foldl_nil]
      have := ih (n / 10) hd
      simp only [digitsVal] at this
      rw [this, digitVal_digitCh (n % 10) (Nat.mod_lt _ (by norm_num))]
      omega

theorem natToDigits_all_digits (n : Nat) :
    ∀ c ∈ natToDigits n, isDigitCh c = true := by
  induction n using Nat.strong_induction_on with
  | _ n ih =>
    by_cases h10 : n < 10
    · have : natToDigits n = [digitCh n] := by simp [natToDigits, natToDigitsGo, h10]
      rw [this]
      intro c hc
      simp at hc
      subst hc
      exact isDigitCh_digitCh n
    · rw [natToDigits_step n h10]
      intro c hc
      rcases List.mem_append.mp hc with h | h
      · exact ih (n / 10) (Nat.div_lt_self (by omega) (by norm_num)) c h
      · simp at h
        subst h
        exact isDigitCh_digitCh (n % 10)

theorem natToDigits_ne_nil (n : Nat) : natToDigits n ≠ [] := by
  by_cases h10 : n < 10
  · simp [natToDigits, natToDigitsGo, h10]
  · rw [natToDigits_step n h10]
    simp

theorem digitsVal_replicate_zero (k : Nat) (cs : List Char) :
    digitsVal (List.replicate k '0' ++ cs) = digitsVal cs := by
  induction k with
  | zero => simp
  | succ k ih =>
    simp only [List.replicate_succ, List.cons_append, digitsVal, List.foldl_cons]
    simpa [digitsVal, digitVal] using ih

/-! ## Python `int()` and `str(int)` -/

/-- Strip leading and trailing whitespace, as Python `str.strip()` /
the implicit stripping done by `int()` and `float()`. -/
def trimC (cs : List Char) : List Char :=
  ((cs.dropWhile isSpaceCh).reverse.dropWhile isSpaceCh).reverse

/-- All-digit nonempty parse. -/
def natAll (cs : List Char) : Option Nat :=
  if cs ≠ [] ∧ cs.all isDigitCh then some (digitsVal cs) else none

/-- Model of Python `int(s)` on a character list: optional sign after
whitespace stripping, then only decimal digits.  (Underscore digit
separators and non-ASCII digits accepted by CPython are not modelled;
no claim depends on them.) -/
def pyIntC (cs0 : List Char) : Option Int :=
  let t := trimC cs0
  if t = [] then none
  else if t.head? = some '+' then (natAll t.tail).map (fun n => (n : Int))
  else if t.head? = some '-' then (natAll t.tail).map (fun n => -(n : Int))
  else (natAll t).map (fun n => (n : Int))

def pyInt (s : String) : Option Int := pyIntC s.data

/-- Model of Python `str(n)` for an int. -/
def intRender (n : Int) : List Char :=
  if n < 0 then '-' :: natToDigits n.natAbs else natToDigits n.natAbs

def intRenderS (n : Int) : String := String.mk (intRender n)

theorem trimC_of_no_space (cs : List Char)
    (h : ∀ c ∈ cs, isSpaceCh c = false) : trimC cs = cs := by
  unfold trimC
  have h1 : List.dropWhile isSpaceCh cs = cs := by
    rw [List.dropWhile_eq_self_iff]
    intro hne
    have hm : cs[0] ∈ cs := List.getElem_mem hne
    simp [h _ hm]
  rw [h1]
  have h2 : List.dropWhile isSpaceCh cs.reverse = cs.reverse := by
    rw [List.dropWhile_eq_self_iff]
    intro hne
    have hm : cs.reverse[0] ∈ cs := by
      rw [← List.mem_reverse]
      exact List.getElem_mem hne
    simpa using h _ hm
  rw [h2, List.reverse_reverse]

theorem natAll_natToDigits (n : Nat) : natAll (natToDigits n) = some n := by
  unfold natAll
  rw [if_pos]
  · rw [digitsVal_natToDigits]
  · exact ⟨natToDigits_ne_nil n, List.all_eq_true.mpr (natToDigits_all_digits n)⟩

theorem isSpaceCh_of_digit (c : Char) (h : isDigitCh c = true) :
    isSpaceCh c = false := by
  simp only [isDigitCh, decide_eq_true_eq] at h
  rcases h with h | h | h | h | h | h | h | h | h | h <;> subst h <;> rfl

theorem digit_ne_plus (c : Char) (h : isDigitCh c = true) : c ≠ '+' := by
  simp only [isDigitCh, decide_eq_true_eq] at h
  rcases h with h | h | h | h | h | h | h | h | h | h <;> subst h <;> decide

theorem digit_ne_minus (c : Char) (h : isDigitCh c = true) : c ≠ '-' := by
  simp only [isDigitCh, decide_eq_true_eq] at h
  rcases h with h | h | h | h | h | h | h | h | h | h <;> subst h <;> decide

/-- Round trip: `int(str(n)) = n`. -/
theorem pyIntC_intRender (n : Int) : pyIntC (intRender n) = some n := by
  have hds := natToDigits_all_digits n.natAbs
  have hnospace : ∀ c ∈ intRender n, isSpaceCh c = false := by
    intro c hc
    unfold intRender at hc
    split at hc
    · rcases List.mem_cons.mp hc with h | h
      · subst h; rfl
      · exact isSpaceCh_of_digit c (hds c h)
    · exact isSpaceCh_of_digit c (hds c hc)
  unfold pyIntC
  simp only
  rw [trimC_of_no_space _ hnospace]
  unfold intRender
  by_cases hneg : n < 0
  · simp only [hneg, if_true]
    rw [if_neg (by simp), if_neg (by simp),
      if_pos (show ('-' :: natToDigits n.natAbs).head? = some '-' from rfl)]
    simp only [List.tail_cons, natAll_natToDigits]
    have hval : -((n.natAbs : Nat) : Int) = n := by omega
    show some (-((n.natAbs : Nat) : Int)) = some n
    rw [hval]
  · simp only [hneg, if_false]
    obtain ⟨c, cs, hcons⟩ := List.exists_cons_of_ne_nil (natToDigits_ne_nil n.natAbs)
    have hc : isDigitCh c = true := by
      apply hds
      rw [hcons]
      exact List.mem_cons_self c cs
    rw [hcons, if_neg (by simp), if_neg (by simp [digit_ne_plus c hc]),
      if_neg (by simp [digit_ne_minus c hc]), ← hcons, natAll_natToDigits]
    have hval : ((n.natAbs : Nat) : Int) = n := by omega
    simp [hval]

/-! ## Python floats

Python floats are modelled as exact decimal numbers: `finite m j`
stands for the real value `m / 10^j`, plus the special values
`inf`, `ninf` and `nan`.  IEEE-754 rounding is not modelled; Python
guarantees `float(str(x)) == x`, so the round-trip verdicts agree. -/

inductive PFloat where
  | finite (m : Int) (j : Nat)
  | inf
  | ninf
  | nan
deriving DecidableEq, Repr

/-- Python `==` on two model floats (`nan` is not equal to itself). -/
def pfloatEq : PFloat → PFloat → Bool
  | .finite m1 j1, .finite m2 j2 => m1 * 10 ^ j2 = m2 * 10 ^ j1
  | .inf, .inf => true
  | .ninf, .ninf => true
  | _, _ => false

/-- Exponent-part parse after the `e`: optional sign, then digits. -/
def parseExpDigits (cs : List Char) : Option Int :=
  if cs.head? = some '+' then (natAll cs.tail).map (fun n => (n : Int))
  else if cs.head? = some '-' then (natAll cs.tail).map (fun n => -(n : Int))
  else (natAll cs).map (fun n => (n : Int))

/-- Numeric body of Python `float(s)` (sign already stripped):
`digits [. digits] [(e|E) exp]` with at least one mantissa digit. -/
def pyFloatNum (sgn : Int) (t : List Char) : Option PFloat :=
  let ds1 := t.takeWhile isDigitCh
  let r1 := t.dropWhile isDigitCh
  let ds2 := if r1.head? = some '.' then r1.tail.takeWhile isDigitCh else []
  let r2 := if r1.head? = some '.' then r1.tail.dropWhile isDigitCh else r1
  if ds1 = [] ∧ ds2 = [] then none
  else
    let m0 : Int := sgn * (digitsVal (ds1 ++ ds2) : Int)
    let j0 : Nat := ds2.length
    match r2 with
    | [] => some (.finite m0 j0)
    | c :: rest =>
      if c = 'e' ∨ c = 'E' then
        match parseExpDigits rest with
        | some e =>
          if 0 ≤ e then some (.finite (m0 * 10 ^ e.toNat) j0)
          else some (.finite m0 (j0 + (-e).toNat))
        | none => none
      else none

/-- Word forms accepted by Python `float(s)` after the optional sign:
`inf`, `infinity` and `nan`, case-insensitively; otherwise numeric. -/
def pyFloatWord (sgn : Int) (t : List Char) : Option PFloat :=
  let low := t.map Char.toLower
  if low = [ 'i', 'n', 'f' ] ∨ low = [ 'i', 'n', 'f', 'i', 'n', 'i', 't', 'y' ] then
    some (if sgn = 1 then .inf else .ninf)
  else if low = [ 'n', 'a', 'n' ] then some .nan
  else pyFloatNum sgn t

/-- Model of Python `float(s)`: whitespace-stripped, optional sign,
then a word form or a decimal literal. -/
def pyFloatC (cs0 : List Char) : Option PFloat :=
  let t0 := trimC cs0
  if t0.head? = some '+' then pyFloatWord 1 t0.tail
  else if t0.head? = some '-' then pyFloatWord (-1) t0.tail
  else pyFloatWord 1 t0

def pyFloat (s : String) : Option PFloat := pyFloatC s.data

/-- Strip trailing decimal zeros: `reduceFloat j m` rewrites the value
`m / 10^j` to an equal pair with no trailing zero in the mantissa. -/
def reduceFloat : Nat → Int → Int × Nat
  | 0, m => (m, 0)
  | j + 1, m => if m % 10 = 0 then reduceFloat j (m / 10) else (m, j + 1)

/-- Pad a digit list with leading zeros up to length `k`. -/
def padLeft (cs : List Char) (k : Nat) : List Char :=
  List.replicate (k - cs.length) '0' ++ cs

/-- Model of Python `str(x)` / `repr(x)` for a float: the reduced exact
decimal form (Python switches to scientific notation for very large or
small magnitudes; that variation is irrelevant to the round-trip law
because both forms parse back to the same value). -/
def floatRender : PFloat → List Char
  | .inf => [ 'i', 'n', 'f' ]
  | .ninf => [ '-', 'i', 'n', 'f' ]
  | .nan => [ 'n', 'a', 'n' ]
  | .finite m j =>
    let p := reduceFloat j m
    let sign : List Char := if p.1 < 0 then ['-'] else []
    let ds := natToDigits p.1.natAbs
    if p.2 = 0 then sign ++ ds ++ [ '.', '0' ]
    else
      let ds := padLeft ds (p.2 + 1)
      sign ++ ds.take (ds.length - p.2) ++ [ '.' ] ++ ds.drop (ds.length - p.2)

theorem takeWhile_all_append (p : Char → Bool) (xs : List Char) (y : Char)
    (ys : List Char) (hxs : ∀ c ∈ xs, p c = true) (hy : p y = false) :
    (xs ++ y :: ys).takeWhile p = xs := by
  induction xs with
  | nil => simp [List.takeWhile, hy]
  | cons x xs ih =>
    have hx : p x = true := hxs x (List.mem_cons_self x xs)
    simp only [List.cons_append, List.takeWhile_cons, hx, if_true]
    rw [ih (fun c hc => hxs c (List.mem_cons_of_mem x hc))]

theorem dropWhile_all_append (p : Char → Bool) (xs : List Char) (y : Char)
    (ys : List Char) (hxs : ∀ c ∈ xs, p c = true) (hy : p y = false) :
    (xs ++ y :: ys).dropWhile p = y :: ys := by
  induction xs with
  | nil => simp [List.dropWhile, hy]
  | cons x xs ih =>
    have hx : p x = true := hxs x (List.mem_cons_self x xs)
    simp only [List.cons_append, List.dropWhile_cons, hx, if_true]
    exact ih (fun c hc => hxs c (List.mem_cons_of_mem x hc))

theorem takeWhile_all (p : Char → Bool) (xs : List Char)
    (hxs : ∀ c ∈ xs, p c = true) : xs.takeWhile p = xs := by
  induction xs with
  | nil => rfl
  | cons x xs ih =>
    simp only [List.takeWhile_cons, hxs x (List.mem_cons_self x xs), if_true]
    rw [ih (fun c hc => hxs c (List.mem_cons_of_mem x hc))]

theorem dropWhile_all (p : Char → Bool) (xs : List Char)
    (hxs : ∀ c ∈ xs, p c = true) : xs.dropWhile p = [] := by
  induction xs with
  | nil => rfl
  | cons x xs ih =>
    simp only [List.dropWhile_cons, hxs x (List.mem_cons_self x xs), if_true]
    exact ih (fun c hc => hxs c (List.mem_cons_of_mem x hc))

theorem digitsVal_append_single (xs : List Char) (c : Char) :
    digitsVal (xs ++ [c]) = 10 * digitsVal xs + digitVal c := by
  simp [digitsVal, List.foldl_append]

theorem toLower_digit (c : Char) (h : isDigitCh c = true) :
    Char.toLower c = c := by
  simp only [isDigitCh, decide_eq_true_eq] at h
  rcases h with h | h | h | h | h | h | h | h | h | h <;> subst h <;> decide

theorem digit_ne_dot (c : Char) (h : isDigitCh c = true) : c ≠ '.' := by
  simp only [isDigitCh, decide_eq_true_eq] at h
  rcases h with h | h | h | h | h | h | h | h | h | h <;> subst h <;> decide

theorem digit_ne_i (c : Char) (h : isDigitCh c = true) : c ≠ 'i' := by
  simp only [isDigitCh, decide_eq_true_eq] at h
  rcases h with h | h | h | h | h | h | h | h | h | h <;> subst h <;> decide

theorem digit_ne_n (c : Char) (h : isDigitCh c = true) : c ≠ 'n' := by
  simp only [isDigitCh, decide_eq_true_eq] at h
  rcases h with h | h | h | h | h | h | h | h | h | h <;> subst h <;> decide

theorem isDigitCh_dot : isDigitCh '.' = false := by decide

/-- A list headed by a decimal digit is not an accepted float word. -/
theorem pyFloatWord_digit_head (sgn : Int) (d : Char) (rest : List Char)
    (hd : isDigitCh d = true) :
    pyFloatWord sgn (d :: rest) = pyFloatNum sgn (d :: rest) := by
  unfold pyFloatWord
  have hlow : (d :: rest).map Char.toLower =
      Char.toLower d :: rest.map Char.toLower := rfl
  rw [hlow, toLower_digit d hd]
  rw [if_neg, if_neg]
  · intro hcontra
    have : d = 'n' := by injection hcontra
    exact digit_ne_n d hd this
  · rintro (hcontra | hcontra)
    · have : d = 'i' := by injection hcontra
      exact digit_ne_i d hd this
    · have : d = 'i' := by injection hcontra
      exact digit_ne_i d hd this

/-- Parsing the numeric body of a plain decimal `ds1.ds2`. -/
theorem pyFloatNum_plain (sgn : Int) (ds1 ds2 : List Char)
    (h1 : ds1 ≠ []) (hd1 : ∀ c ∈ ds1, isDigitCh c = true)
    (hd2 : ∀ c ∈ ds2, isDigitCh c = true) :
    pyFloatNum sgn (ds1 ++ '.' :: ds2) =
      some (.finite (sgn * (digitsVal (ds1 ++ ds2) : Int)) ds2.length) := by
  have htake : (ds1 ++ '.' :: ds2).takeWhile isDigitCh = ds1 :=
    takeWhile_all_append _ _ _ _ hd1 isDigitCh_dot
  have hdrop : (ds1 ++ '.' :: ds2).dropWhile isDigitCh = '.' :: ds2 :=
    dropWhile_all_append _ _ _ _ hd1 isDigitCh_dot
  have htake2 : ds2.takeWhile isDigitCh = ds2 := takeWhile_all _ _ hd2
  have hdrop2 : ds2.dropWhile isDigitCh = [] := dropWhile_all _ _ hd2
  unfold pyFloatNum
  rw [htake, hdrop]
  simp [h1, htake2, hdrop2]

/-- Parsing a plain rendered decimal `[-]ds1.ds2`. -/
theorem pyFloatC_plain (neg : Bool) (ds1 ds2 : List Char)
    (h1 : ds1 ≠ []) (hd1 : ∀ c ∈ ds1, isDigitCh c = true)
    (hd2 : ∀ c ∈ ds2, isDigitCh c = true) :
    pyFloatC ((if neg then ['-'] else []) ++ ds1 ++ '.' :: ds2) =
      some (.finite ((if neg then -1 else 1) * (digitsVal (ds1 ++ ds2) : Int))
        ds2.length) := by
  obtain ⟨d, ds1t, hcons⟩ := List.exists_cons_of_ne_nil h1
  have hddig : isDigitCh d = true := by
    apply hd1; rw [hcons]; exact List.mem_cons_self d ds1t
  have hnospace : ∀ c ∈ (if neg then ['-'] else []) ++ ds1 ++ '.' :: ds2,
      isSpaceCh c = false := by
    intro c hc
    rcases List.mem_append.mp hc with hl | hr
    · rcases List.mem_append.mp hl with hs | hds
      · cases neg <;> simp at hs
        subst hs; rfl
      · exact isSpaceCh_of_digit c (hd1 c hds)
    · rcases List.mem_cons.mp hr with he | hds
      · subst he; rfl
      · exact isSpaceCh_of_digit c (hd2 c hds)
  have hplainword : pyFloatWord (if neg then -1 else 1) (ds1 ++ '.' :: ds2) =
      some (.finite ((if neg then -1 else 1) * (digitsVal (ds1 ++ ds2) : Int))
        ds2.length) := by
    rw [hcons, List.cons_append, pyFloatWord_digit_head _ d _ hddig,
      ← List.cons_append, ← hcons]
    exact pyFloatNum_plain _ ds1 ds2 h1 hd1 hd2
  cases neg with
  | true =>
    simp only [if_true, List.cons_append, List.nil_append] at hplainword ⊢
    have hstep : pyFloatC ('-' :: (ds1 ++ '.' :: ds2)) =
        pyFloatWord (-1) (ds1 ++ '.' :: ds2) := by
      simp only [pyFloatC]
      rw [trimC_of_no_space _ (by simpa using hnospace)]
      simp
    rw [hstep]
    exact hplainword
  | false =>
    simp only [Bool.false_eq_true, if_false, List.nil_append] at hplainword ⊢
    have hstep : pyFloatC (ds1 ++ '.' :: ds2) =
        pyFloatWord 1 (ds1 ++ '.' :: ds2) := by
      simp only [pyFloatC]
      rw [trimC_of_no_space _ (by simpa using hnospace)]
      rw [hcons]
      simp [digit_ne_plus d hddig, digit_ne_minus d hddig]
    rw [hstep]
    exact hplainword

theorem reduceFloat_le (j : Nat) : ∀ m : Int, (reduceFloat j m).2 ≤ j := by
  induction j with
  | zero => intro m; simp [reduceFloat]
  | succ j ih =>
    intro m
    unfold reduceFloat
    by_cases h : m % 10 = 0
    · simp only [h, if_true]
      exact le_trans (ih (m / 10)) (Nat.le_succ j)
    · simp [h]

theorem reduceFloat_val (j : Nat) : ∀ m : Int,
    (reduceFloat j m).1 * 10 ^ (j - (reduceFloat j m).2) = m := by
  induction j with
  | zero => intro m; simp [reduceFloat]
  | succ j ih =>
    intro m
    unfold reduceFloat
    by_cases h : m % 10 = 0
    · simp only [h, if_true]
      have hdvd : (10 : Int) ∣ m := Int.dvd_of_emod_eq_zero h
      have hle := reduceFloat_le j (m / 10)
      have hstep : j + 1 - (reduceFloat j (m / 10)).2 =
          (j - (reduceFloat j (m / 10)).2) + 1 := by omega
      rw [hstep, pow_succ, ← mul_assoc, ih (m / 10)]
      exact Int.ediv_mul_cancel hdvd
    · simp [h]

theorem padLeft_mem (cs : List Char) (k : Nat) (c : Char)
    (hc : c ∈ padLeft cs k) : c = '0' ∨ c ∈ cs := by
  rcases List.mem_append.mp hc with h | h
  · exact Or.inl (List.eq_of_mem_replicate h)
  · exact Or.inr h

theorem padLeft_length (cs : List Char) (k : Nat) :
    (padLeft cs k).length = max k cs.length := by
  simp [padLeft]
  omega

theorem digitsVal_padLeft (cs : List Char) (k : Nat) :
    digitsVal (padLeft cs k) = digitsVal cs :=
  digitsVal_replicate_zero _ _

/-- Round trip: `float(str(x)) == x` for every non-NaN model float. -/
theorem pyFloatC_floatRender (f : PFloat) (h : f ≠ .nan) :
    ∃ g, pyFloatC (floatRender f) = some g ∧ pfloatEq g f = true := by
  cases f with
  | inf => exact ⟨.inf, rfl, rfl⟩
  | ninf => exact ⟨.ninf, rfl, rfl⟩
  | nan => exact absurd rfl h
  | finite m j =>
    have hval := reduceFloat_val j m
    have hle := reduceFloat_le j m
    set m' := (reduceFloat j m).1 with hm'
    set j' := (reduceFloat j m).2 with hj'
    have habs : ∀ sgnb : Bool, (sgnb = decide (m' < 0)) →
        ((if sgnb then -1 else 1) : Int) * (m'.natAbs : Int) = m' := by
      intro sgnb hsgn
      cases sgnb with
      | true =>
        have : m' < 0 := by
          have := hsgn.symm
          simpa using this
        simp only [if_true]
        omega
      | false =>
        have : ¬ m' < 0 := by
          have := hsgn.symm
          simpa using this
        rw [if_neg (by simp)]
        omega
    have hsigned : ((if decide (m' < 0) = true then -1 else 1) : Int) *
        (m'.natAbs : Int) = m' := habs _ rfl
    by_cases hjz : j' = 0
    · -- rendered as `sign ++ digits ++ ".0"`
      have hrender : floatRender (.finite m j) =
          (if decide (m' < 0) then ['-'] else []) ++
            natToDigits m'.natAbs ++ '.' :: ['0'] := by
        simp only [floatRender]
        rw [← hm', ← hj', hjz]
        by_cases hneg : m' < 0 <;> simp [hneg]
      rw [hrender]
      rw [pyFloatC_plain (decide (m' < 0)) _ _ (natToDigits_ne_nil _)
        (natToDigits_all_digits _) (by intro c hc; simp at hc; subst hc; rfl)]
      refine ⟨_, rfl, ?_⟩
      have hdv : digitsVal (natToDigits m'.natAbs ++ ['0']) =
          10 * m'.natAbs := by
        rw [digitsVal_append_single, digitsVal_natToDigits]
        rfl
      have hmval : m' * 10 ^ j = m := by
        have h0 := hval
        rw [hjz, Nat.sub_zero] at h0
        exact h0
      simp only [pfloatEq, hdv, List.length_cons, List.length_nil]
      rw [decide_eq_true_eq]
      simp only [Nat.cast_mul, Nat.cast_ofNat, pow_one]
      linear_combination (10 * 10 ^ j : ℤ) * hsigned + 10 * hmval
    · -- rendered with `j'` fractional digits
      have hL : (padLeft (natToDigits m'.natAbs) (j' + 1)).length ≥ j' + 1 := by
        rw [padLeft_length]
        omega
      set dsP := padLeft (natToDigits m'.natAbs) (j' + 1) with hdsP
      set L := dsP.length with hLdef
      have hsplit : dsP.take (L - j') ++ dsP.drop (L - j') = dsP :=
        List.take_append_drop _ _
      have hdigP : ∀ c ∈ dsP, isDigitCh c = true := by
        intro c hc
        rcases padLeft_mem _ _ c hc with h0 | h0
        · subst h0; rfl
        · exact natToDigits_all_digits _ c h0
      have htne : dsP.take (L - j') ≠ [] := by
        intro hcontra
        have := congrArg List.length hcontra
        simp only [List.length_take, List.length_nil] at this
        omega
      have hrender : floatRender (.finite m j) =
          (if decide (m' < 0) then ['-'] else []) ++
            dsP.take (L - j') ++ '.' :: dsP.drop (L - j') := by
        simp only [floatRender]
        rw [← hm', ← hj', if_neg hjz, ← hdsP, ← hLdef]
        by_cases hneg : m' < 0 <;> simp [hneg]
      rw [hrender]
      rw [pyFloatC_plain (decide (m' < 0)) _ _ htne
        (fun c hc => hdigP c (List.mem_of_mem_take hc))
        (fun c hc => hdigP c (List.mem_of_mem_drop hc))]
      refine ⟨_, rfl, ?_⟩
      have hdv : digitsVal (dsP.take (L - j') ++ dsP.drop (L - j')) =
          m'.natAbs := by
        rw [hsplit, hdsP, digitsVal_padLeft, digitsVal_natToDigits]
      have hlen2 : (dsP.drop (L - j')).length = j' := by
        simp only [List.length_drop]
        omega
      have hval2 : m' * 10 ^ j = m * 10 ^ j' := by
        have h0 := congrArg (fun z : ℤ => z * 10 ^ j') hval
        simp only at h0
        rw [mul_assoc, ← pow_add, show j - j' + j' = j from by omega] at h0
        exact h0
      simp only [pfloatEq, hdv, hlen2]
      rw [decide_eq_true_eq]
      linear_combination (10 ^ j : ℤ) * hsigned + hval2

/-! ## Python values

The values the tool manipulates: scalars plus the structured values
produced by `json.loads` (lists and string-keyed dicts). -/

inductive PyVal where
  | none
  | bool (b : Bool)
  | int (n : Int)
  | float (f : PFloat)
  | str (s : String)
  | list (xs : List PyVal)
  | dict (kvs : List (String × PyVal))
deriving Repr

/-- Lookup in a Python dict modelled as an insertion-ordered
association list. -/
def pyDictLookup : List (String × PyVal) → String → Option PyVal
  | [], _ => Option.none
  | (k, v) :: rest, key => if k = key then some v else pyDictLookup rest key

/-- Assignment `d[k] = v` on a Python dict: updates in place, appends if new. -/
def pyDictInsert : List (String × PyVal) → String → PyVal →
    List (String × PyVal)
  | [], k, v => [(k, v)]
  | (k0, v0) :: rest, k, v =>
    if k0 = k then (k0, v) :: rest else (k0, v0) :: pyDictInsert rest k v

mutual

/-- Structural size of a value, used as recursion fuel. -/
def pySize : PyVal → Nat
  | .list xs => pySizeList xs + 1
  | .dict kvs => pySizeDict kvs + 1
  | _ => 1

def pySizeList : List PyVal → Nat
  | [] => 0
  | x :: xs => pySize x + pySizeList xs + 1

def pySizeDict : List (String × PyVal) → Nat
  | [] => 0
  | (_, v) :: kvs => pySize v + pySizeDict kvs + 1

end

mutual

/-- Python `==`, fuel-structural (the fuel is an upper bound on depth;
scalar cases ignore it).  `nan` compares unequal to everything
including itself; bools and numbers compare across types. -/
def pyEqFuel : Nat → PyVal → PyVal → Bool
  | _, .none, .none => true
  | _, .bool a, .bool b => a = b
  | _, .bool a, .int n => ((if a then 1 else 0 : Int)) = n
  | _, .int n, .bool a => n = ((if a then 1 else 0 : Int))
  | _, .int m, .int n => m = n
  | _, .int n, .float f => pfloatEq (.finite n 0) f
  | _, .float f, .int n => pfloatEq f (.finite n 0)
  | _, .bool a, .float f => pfloatEq (.finite (if a then 1 else 0) 0) f
  | _, .float f, .bool a => pfloatEq f (.finite (if a then 1 else 0) 0)
  | _, .float f, .float g => pfloatEq f g
  | _, .str s, .str t => s = t
  | fuel + 1, .list xs, .list ys => pyEqList fuel xs ys
  | fuel + 1, .dict xs, .dict ys =>
    (xs.length = ys.length : Bool) && pyEqDictSub fuel xs ys
  | _, _, _ => false

def pyEqList : Nat → List PyVal → List PyVal → Bool
  | _, [], [] => true
  | fuel + 1, x :: xs, y :: ys => pyEqFuel fuel x y && pyEqList fuel xs ys
  | _, _, _ => false

def pyEqDictSub : Nat → List (String × PyVal) → List (String × PyVal) → Bool
  | _, [], _ => true
  | fuel + 1, (k, v) :: rest, ys =>
    (match pyDictLookup ys k with
     | some w => pyEqFuel fuel v w
     | Option.none => false) && pyEqDictSub fuel rest ys
  | 0, _ :: _, _ => false

end

def pyEq (a b : PyVal) : Bool := pyEqFuel (pySize a + pySize b) a b

/-- Python `repr` of a string: quote selection and basic escapes.
(Python renders other control and non-printable characters with
`\xhh` escapes; those are not modelled — no claim depends on them.) -/
def pyStrQuote (cs : List Char) : Char :=
  if cs.contains '\x27' && ! cs.contains '"' then '"' else '\x27'

def pyEscapeCh (q c : Char) : List Char :=
  if c = '\\' then [ '\\', '\\' ]
  else if c = q then [ '\\', q ]
  else if c = '\n' then [ '\\', 'n' ]
  else if c = '\r' then [ '\\', 'r' ]
  else if c = '\t' then [ '\\', 't' ]
  else [c]

def pyReprStr (s : String) : List Char :=
  let q := pyStrQuote s.data
  q :: (s.data.flatMap (pyEscapeCh q)) ++ [q]

mutual

/-- Python `repr`, fuel-structural. -/
def pyReprFuel : Nat → PyVal → List Char
  | _, .none => [ 'N', 'o', 'n', 'e' ]
  | _, .bool true => [ 'T', 'r', 'u', 'e' ]
  | _, .bool false => [ 'F', 'a', 'l', 's', 'e' ]
  | _, .int n => intRender n
  | _, .float f => floatRender f
  | _, .str s => pyReprStr s
  | fuel + 1, .list xs => '[' :: pyReprList fuel xs ++ [']']
  | fuel + 1, .dict kvs => '\x7b' :: pyReprDict fuel kvs ++ ['\x7d']
  | 0, .list _ => []
  | 0, .dict _ => []

def pyReprList : Nat → List PyVal → List Char
  | _, [] => []
  | fuel + 1, [x] => pyReprFuel fuel x
  | fuel + 1, x :: y :: xs =>
    pyReprFuel fuel x ++ ',' :: ' ' :: pyReprList fuel (y :: xs)
  | 0, _ :: _ => []

def pyReprDict : Nat → List (String × PyVal) → List Char
  | _, [] => []
  | fuel + 1, [(k, v)] => pyReprStr k ++ ':' :: ' ' :: pyReprFuel fuel v
  | fuel + 1, (k, v) :: kv :: kvs =>
    pyReprStr k ++ ':' :: ' ' :: pyReprFuel fuel v ++
      ',' :: ' ' :: pyReprDict fuel (kv :: kvs)
  | 0, _ :: _ => []

end

/-- Python `str(v)`: identity on strings, `repr` otherwise. -/
def pyStrC (v : PyVal) : List Char :=
  match v with
  | .str s => s.data
  | v => pyReprFuel (pySize v) v

def pyStr (v : PyVal) : String := String.mk (pyStrC v)

/-! ## JSON parsing (model of `json.loads`)

A recursive-descent parser over character lists with a structural fuel
parameter (one unit per nesting level / list element, so an initial
fuel of input length plus one never runs out on real inputs).  It
follows the `json` module: strict strings (raw control characters
rejected, the standard escapes accepted), no leading zeros in numbers,
`true`/`false`/`null` plus the Python extensions `NaN`, `Infinity` and
`-Infinity`. -/

def jsonWsCh (c : Char) : Bool :=
  c = ' ' ∨ c = '\t' ∨ c = '\n' ∨ c = '\r'

def jsonWs (cs : List Char) : List Char := cs.dropWhile jsonWsCh

def hexVal (c : Char) : Option Nat :=
  if isDigitCh c then some (digitVal c)
  else if c = 'a' ∨ c = 'A' then some 10
  else if c = 'b' ∨ c = 'B' then some 11
  else if c = 'c' ∨ c = 'C' then some 12
  else if c = 'd' ∨ c = 'D' then some 13
  else if c = 'e' ∨ c = 'E' then some 14
  else if c = 'f' ∨ c = 'F' then some 15
  else none

/-- Parse a JSON string body (after the opening quote); returns the
content and the input remaining after the closing quote. -/
def jsonStringBody : Nat → List Char → Option (List Char × List Char)
  | 0, _ => none
  | _ + 1, [] => none
  | fuel + 1, c :: rest =>
    if c = '"' then some ([], rest)
    else if c = '\\' then
      match rest with
      | [] => none
      | e :: rest2 =>
        let esc : Option (Char × List Char) :=
          if e = '"' then some ('"', rest2)
          else if e = '\\' then some ('\\', rest2)
          else if e = '/' then some ('/', rest2)
          else if e = 'b' then some ('\x08', rest2)
          else if e = 'f' then some ('\x0c', rest2)
          else if e = 'n' then some ('\n', rest2)
          else if e = 'r' then some ('\r', rest2)
          else if e = 't' then some ('\t', rest2)
          else if e = 'u' then
            match rest2 with
            | h1 :: h2 :: h3 :: h4 :: rest3 =>
              match hexVal h1, hexVal h2, hexVal h3, hexVal h4 with
              | some a, some b, some g, some d =>
                some (Char.ofNat (4096 * a + 256 * b + 16 * g + d), rest3)
              | _, _, _, _ => none
            | _ => none
          else none
        match esc with
        | some (ch, r) =>
          (jsonStringBody fuel r).map (fun p => (ch :: p.1, p.2))
        | none => none
    else if c.toNat < 32 then none
    else (jsonStringBody fuel rest).map (fun p => (c :: p.1, p.2))

/-- JSON number grammar: `-? (0 | [1-9][0-9]*) frac? exp?`; an integer
literal yields a Python int, otherwise a float. -/
def jsonNumber (cs : List Char) : Option (PyVal × List Char) :=
  let neg := cs.head? = some '-'
  let cs1 := if neg then cs.tail else cs
  match cs1 with
  | [] => none
  | c :: rest =>
    let intPart : Option (List Char × List Char) :=
      if c = '0' then some (['0'], rest)
      else if isDigitCh c then
        some (c :: rest.takeWhile isDigitCh, rest.dropWhile isDigitCh)
      else none
    match intPart with
    | none => none
    | some (ds1, r1) =>
      let fracPart : Option (List Char × List Char) :=
        if r1.head? = some '.' then
          let f := r1.tail.takeWhile isDigitCh
          if f = [] then none else some (f, r1.tail.dropWhile isDigitCh)
        else some ([], r1)
      match fracPart with
      | none => none
      | some (ds2, r2) =>
        let expPart : Option (Option Int × List Char) :=
          match r2 with
          | e :: r3 =>
            if e = 'e' ∨ e = 'E' then
              let (esgn, r4) : Int × List Char :=
                if r3.head? = some '+' then (1, r3.tail)
                else if r3.head? = some '-' then (-1, r3.tail)
                else (1, r3)
              let eds := r4.takeWhile isDigitCh
              if eds = [] then none
              else some (some (esgn * (digitsVal eds : Int)),
                r4.dropWhile isDigitCh)
            else some (none, r2)
          | [] => some (none, r2)
        match expPart with
        | none => none
        | some (eo, r5) =>
          let sgn : Int := if neg then -1 else 1
          match ds2, eo with
          | [], none => some (.int (sgn * (digitsVal ds1 : Int)), r5)
          | _, _ =>
            let m0 : Int := sgn * (digitsVal (ds1 ++ ds2) : Int)
            let j0 : Nat := ds2.length
            let e : Int := eo.getD 0
            if 0 ≤ e then some (.float (.finite (m0 * 10 ^ e.toNat) j0), r5)
            else some (.float (.finite m0 (j0 + (-e).toNat)), r5)

/-- Does `tok` start the input?  If so return the remainder. -/
def stripToken (tok cs : List Char) : Option (List Char) :=
  if cs.take tok.length = tok then some (cs.drop tok.length) else none

mutual

def jsonValFuel : Nat → List Char → Option (PyVal × List Char)
  | 0, _ => none
  | fuel + 1, cs0 =>
    let cs := jsonWs cs0
    match cs with
    | [] => none
    | c :: rest =>
      if c = '\x7b' then
        let r := jsonWs rest
        if r.head? = some '\x7d' then some (.dict [], r.tail)
        else
          match jsonObjItems fuel r with
          | some (kvs, r2) =>
            some (.dict (kvs.foldl (fun d p => pyDictInsert d p.1 p.2) []), r2)
          | none => none
      else if c = '[' then
        let r := jsonWs rest
        if r.head? = some ']' then some (.list [], r.tail)
        else
          match jsonArrItems fuel r with
          | some (vs, r2) => some (.list vs, r2)
          | none => none
      else if c = '"' then
        (jsonStringBody (rest.length + 1) rest).map
          (fun p => (.str (String.mk p.1), p.2))
      else
        match stripToken [ 't', 'r', 'u', 'e' ] cs with
        | some r => some (.bool true, r)
        | none =>
        match stripToken [ 'f', 'a', 'l', 's', 'e' ] cs with
        | some r => some (.bool false, r)
        | none =>
        match stripToken [ 'n', 'u', 'l', 'l' ] cs with
        | some r => some (.none, r)
        | none =>
        match stripToken [ 'N', 'a', 'N' ] cs with
        | some r => some (.float .nan, r)
        | none =>
        match stripToken [ 'I', 'n', 'f', 'i', 'n', 'i', 't', 'y' ] cs with
        | some r => some (.float .inf, r)
        | none =>
        match stripToken [ '-', 'I', 'n', 'f', 'i', 'n', 'i', 't', 'y' ] cs with
        | some r => some (.float .ninf, r)
        | none => jsonNumber cs

def jsonArrItems : Nat → List Char → Option (List PyVal × List Char)
  | 0, _ => none
  | fuel + 1, cs =>
    match jsonValFuel fuel cs with
    | none => none
    | some (v, rest) =>
      match jsonWs rest with
      | ',' :: rest2 =>
        match jsonArrItems fuel rest2 with
        | some (vs, r) => some (v :: vs, r)
        | none => none
      | ']' :: rest2 => some ([v], rest2)
      | _ => none

def jsonObjItems : Nat → List Char →
    Option (List (String × PyVal) × List Char)
  | 0, _ => none
  | fuel + 1, cs =>
    match cs with
    | '"' :: rest =>
      match jsonStringBody (rest.length + 1) rest with
      | none => none
      | some (key, r1) =>
        match jsonWs r1 with
        | ':' :: r2 =>
          match jsonValFuel fuel r2 with
          | none => none
          | some (v, r3) =>
            match jsonWs r3 with
            | ',' :: r4 =>
              match jsonObjItems fuel (jsonWs r4) with
              | some (kvs, r5) => some ((String.mk key, v) :: kvs, r5)
              | none => none
            | '\x7d' :: r4 => some ([(String.mk key, v)], r4)
            | _ => none
        | _ => none
    | _ => none

end

/-- Model of `json.loads` on a character list. -/
def pyJsonC (cs : List Char) : Option PyVal :=
  match jsonValFuel (cs.length + 1) cs with
  | some (v, rest) => if jsonWs rest = [] then some v else Option.none
  | Option.none => Option.none

def pyJson (s : String) : Option PyVal := pyJsonC s.data

/-! ## The type codec (`infer_type_and_convert` and import decoding) -/

def pyLower (s : String) : String := String.mk (s.data.map Char.toLower)

/-- Model of `value.replace(chr(39), chr(34))` — quote normalization applied
before every json parse in the tool. -/
def quoteNormalize (s : String) : String :=
  String.mk (s.data.map (fun c => if c = '\x27' then '"' else c))

/-- Source function `infer_type_and_convert` (lines 41-65): boolean words,
then `int(value)`, then `float(value)`, then `json.loads` after quote
normalization, else the original string.  The surrounding
`try/except` only guards exceptions that the modelled parsers express
as `none`, so the model is total by construction. -/
def infer_type_and_convert (value : String) : PyVal × String :=
  if pyLower value = "true" then (.bool true, "boolean")
  else if pyLower value = "false" then (.bool false, "boolean")
  else
    match pyInt value with
    | some n => (.int n, "int")
    | Option.none =>
      match pyFloat value with
      | some f => (.float f, "double")
      | Option.none =>
        match pyJson (quoteNormalize value) with
        | some v => (v, "json")
        | Option.none => (.str value, "string")

/-- Outcome of the per-record value conversion on import. -/
inductive DecodeOut where
  | ok (v : PyVal)
  | drop
  | raises
deriving Repr

/-- The import-side conversion keyed by the persisted tag (source
lines 134-146): booleans by case-insensitive test, `int(value)` and
`float(value)` unguarded (a parse failure raises), json guarded (a
parse failure drops the record), anything else passes through. -/
def decodeValue (value : String) (ty : String) : DecodeOut :=
  if ty = "boolean" then .ok (.bool (pyLower value = "true"))
  else if ty = "int" then
    match pyInt value with
    | some n => .ok (.int n)
    | Option.none => .raises
  else if ty = "double" then
    match pyFloat value with
    | some f => .ok (.float f)
    | Option.none => .raises
  else if ty = "json" then
    match pyJson (quoteNormalize value) with
    | some v => .ok v
    | Option.none => .drop
  else .ok (.str value)

/-! ## The remote client, retries, export and import

The REST client is an abstract record of (deterministic) remote
operations; `Except Unit` models an `ApiException`/transient failure.
Side effects of a run (CSV writes, remote calls) are recorded as an
event trace in chronological order; the boolean result records whether
the run completed (`false` = an uncaught exception aborted it). -/

structure DataPoint where
  ts : Int
  value : String
deriving Repr

structure Client where
  getTenantDevice : String → Option String
  getTimeseriesKeys : Option String → Except Unit (List String)
  getTimeseries : Option String → String → Int → Int → Nat →
    Except Unit (List (String × List DataPoint))
  saveEntityTelemetry : String → Int → List (String × PyVal) →
    Except Unit Unit

/-- One retry ladder: `rem` attempts left, `idx` the attempt index.
Returns the final outcome, the number of invocations made, and the
list of waits slept between consecutive attempts. -/
def retryGo {A : Type} (wait : Nat) (f : Nat → Except Unit A)
    (idx : Nat) : Nat → Except Unit A × Nat × List Nat
  | 0 => (.error (), 0, [])
  | rem + 1 =>
    match f idx with
    | .ok a => (.ok a, 1, [])
    | .error e =>
      if rem = 0 then (.error e, 1, [])
      else
        let p := retryGo wait f (idx + 1) rem
        (p.1, p.2.1 + 1, wait :: p.2.2)

/-- Model of `tenacity.retry(stop=stop_after_attempt(n), wait=wait_fixed(w))`. -/
def retryCall {A : Type} (attempts wait : Nat) (f : Nat → Except Unit A) :
    Except Unit A × Nat × List Nat :=
  retryGo wait f 0 attempts

/-- Source function `fetch_timeseries` (lines 67-76): the fetch wrapped with
3 attempts and a fixed wait of 2. -/
def fetch_timeseries (c : Client) (entityId : Option String)
    (keys : String) (startTs endTs : Int) (chunkLimit : Nat) :
    Except Unit (List (String × List DataPoint)) :=
  (retryCall 3 2 (fun _ => c.getTimeseries entityId keys startTs endTs
    chunkLimit)).1

/-- Source function `save_telemetry` (lines 116-118). -/
def save_telemetry (c : Client) (entityId : String) (ts : Int)
    (values : List (String × PyVal)) : Except Unit Unit :=
  (retryCall 3 2 (fun _ => c.saveEntityTelemetry entityId ts values)).1

/-- Source function `get_device_id` (lines 33-39): catches the ApiException,
logs, and returns `None`. -/
def get_device_id (c : Client) (deviceName : String) : Option String :=
  c.getTenantDevice deviceName

/-- Comma-join, as the Python `','.join(...)`. -/
def joinComma : List String → String
  | [] => ""
  | [s] => s
  | s :: rest => s ++ "," ++ joinComma rest

/-- Source function `get_all_keys` (lines 29-31): joins the discovered keys
with commas; an ApiException propagates (there is no handler). -/
def get_all_keys (c : Client) (entityId : Option String) :
    Except Unit String :=
  (c.getTimeseriesKeys entityId).map joinComma

inductive Ev where
  | header
  | resolve (name : String) (result : Option String)
  | keyDiscovery (entityId : Option String)
  | fetch (entityId : Option String) (keys : String) (startTs endTs : Int)
  | row (entityId : Option String) (key : String) (ts : Int) (v : PyVal)
      (ty : String)
deriving Repr

/-- The rows written for one fetched response: the source iterates the
response mapping per key and appends every data point of that key
(lines 98-105), inferring the value type on the way. -/
def rowsOfResponse (did : Option String)
    (resp : List (String × List DataPoint)) : List Ev :=
  (resp.map (fun p => p.2.map (fun dp =>
    let r := infer_type_and_convert dp.value
    Ev.row did p.1 dp.ts r.1 r.2))).flatten

/-- The while loop of `export_timeseries` (lines 91-112): windows of
width `W`, clipped to `endTs`; a failed fetch is logged and skipped,
the loop always advances to `current_end_ts`. -/
def exportWindows (c : Client) (did : Option String) (keys : String)
    (chunkLimit : Nat) (W endTs : Int) : Int → Nat → List Ev
  | _, 0 => []
  | cur, fuel + 1 =>
    if cur < endTs then
      let ce := min (cur + W) endTs
      (match fetch_timeseries c did keys cur ce chunkLimit with
       | .error _ => [Ev.fetch did keys cur ce]
       | .ok resp => Ev.fetch did keys cur ce :: rowsOfResponse did resp)
      ++ exportWindows c did keys chunkLimit W endTs ce fuel
    else []

/-- The device loop of `export_timeseries` (lines 84-114).  `keys`
threads the function-level variable: when falsy (`None` or the empty
string) key discovery runs and rebinds it; a discovery failure is an
uncaught exception that aborts the run. -/
def exportDevices (c : Client) (startTs endTs W : Int) (chunkLimit : Nat)
    (fuel : Nat) : List String → Option String → List Ev × Bool
  | [], _ => ([], true)
  | name :: rest, keys =>
    let did := get_device_id c name
    if keys.getD "" = "" then
      match get_all_keys c did with
      | .error _ => ([Ev.resolve name did, Ev.keyDiscovery did], false)
      | .ok ks =>
        let wEvs := exportWindows c did ks chunkLimit W endTs startTs fuel
        let p := exportDevices c startTs endTs W chunkLimit fuel rest (some ks)
        (Ev.resolve name did :: Ev.keyDiscovery did :: (wEvs ++ p.1), p.2)
    else
      let ks := keys.getD ""
      let wEvs := exportWindows c did ks chunkLimit W endTs startTs fuel
      let p := exportDevices c startTs endTs W chunkLimit fuel rest keys
      (Ev.resolve name did :: (wEvs ++ p.1), p.2)

/-- Comma-split, as the Python `device_names.split(',')`. -/
def splitCommaGo : List Char → List Char → List String
  | [], acc => [String.mk acc.reverse]
  | c :: rest, acc =>
    if c = ',' then String.mk acc.reverse :: splitCommaGo rest []
    else splitCommaGo rest (c :: acc)

def splitComma (s : String) : List String := splitCommaGo s.data []

/-- Source function `export_timeseries` (lines 78-114): write the header row, then
process the comma-separated device names in order. -/
def export_timeseries (c : Client) (startTs endTs : Int)
    (deviceNames : String) (keys : Option String) (chunkLimit : Nat)
    (timeLimit : Int) : List Ev × Bool :=
  let W := timeLimit * 60 * 1000
  let fuel := (endTs - startTs).toNat + 1
  let p := exportDevices c startTs endTs W chunkLimit fuel
    (splitComma deviceNames) keys
  (Ev.header :: p.1, p.2)

def csvCell : Option String → String
  | some s => s
  | Option.none => ""

def headerCells : List String := ["deviceId", "key", "ts", "value", "type"]

def evRow : Ev → Option (List String)
  | .header => some headerCells
  | .row did key ts v ty => some [csvCell did, key, intRenderS ts, pyStr v, ty]
  | _ => Option.none

/-- The CSV file contents after an export run.  The file is opened in
mode `w` (line 80), which truncates: the prior contents never appear
in the result. -/
def exportFileContents (_prior : List (List String)) (c : Client)
    (startTs endTs : Int) (deviceNames : String) (keys : Option String)
    (chunkLimit : Nat) (timeLimit : Int) : List (List String) :=
  ((export_timeseries c startTs endTs deviceNames keys chunkLimit
    timeLimit).1).filterMap evRow

/-- The pure window sequence generated by the export loop. -/
def windowsGo (W endTs : Int) : Int → Nat → List (Int × Int)
  | _, 0 => []
  | cur, fuel + 1 =>
    if cur < endTs then
      (cur, min (cur + W) endTs) :: windowsGo W endTs (min (cur + W) endTs) fuel
    else []

def windows (startTs endTs W : Int) : List (Int × Int) :=
  windowsGo W endTs startTs ((endTs - startTs).toNat + 1)

/-! ## Import -/

/-- A row as produced by `csv.DictReader`: all fields are text. -/
structure CsvRow where
  deviceId : String
  key : String
  ts : String
  value : String
  type : String
deriving Repr

inductive ImpEv where
  | save (deviceId : String) (ts : Int) (values : List (String × PyVal))
      (ok : Bool)
deriving Repr

/-- Model of `telemetry_data[device_id].append(point)` over an insertion-ordered
dict. -/
def appendPoint (td : List (String × List (Int × List (String × PyVal))))
    (did : String) (pt : Int × List (String × PyVal)) :
    List (String × List (Int × List (String × PyVal))) :=
  match td with
  | [] => [(did, [pt])]
  | (k, pts) :: rest =>
    if k = did then (k, pts ++ [pt]) :: rest
    else (k, pts) :: appendPoint rest did pt

/-- The reader loop of `import_timeseries` (lines 124-148): `ts` is
parsed with a bare `int(...)` (a failure raises out of the function),
then the value is converted per tag; only a json failure is caught
(record dropped), an int/double failure raises. -/
def parseRows (c : List CsvRow)
    (td : List (String × List (Int × List (String × PyVal)))) :
    Except Unit (List (String × List (Int × List (String × PyVal)))) :=
  match c with
  | [] => .ok td
  | r :: rest =>
    match pyInt r.ts with
    | Option.none => .error ()
    | some ts =>
      match decodeValue r.value r.type with
      | .raises => .error ()
      | .drop => parseRows rest td
      | .ok v => parseRows rest (appendPoint td r.deviceId (ts, [(r.key, v)]))

/-- The save loop per device (lines 150-168): a failed save is logged
and skipped, the loop continues. -/
def saveDevicePoints (c : Client) (did : String) :
    List (Int × List (String × PyVal)) → List ImpEv
  | [] => []
  | (ts, values) :: rest =>
    match save_telemetry c did ts values with
    | .ok _ => ImpEv.save did ts values true :: saveDevicePoints c did rest
    | .error _ => ImpEv.save did ts values false :: saveDevicePoints c did rest

/-- Source function `import_timeseries` (lines 120-168). -/
def import_timeseries (c : Client) (rows : List CsvRow) :
    Except Unit (List ImpEv) :=
  match parseRows rows [] with
  | .error e => .error e
  | .ok td => .ok ((td.map (fun p => saveDevicePoints c p.1 p.2)).flatten)

/-! ## Window arithmetic -/

/-- The number of windows the loop runs: the ceiling of
`(endTs - startTs) / W`. -/
def numWindows (startTs endTs W : Int) : Nat :=
  ((endTs - startTs).toNat + W.toNat - 1) / W.toNat

theorem windowsGo_of_ge (W endTs cur : Int) (h : ¬ cur < endTs)
    (fuel : Nat) : windowsGo W endTs cur fuel = [] := by
  cases fuel <;> simp [windowsGo, h]

theorem numWindows_zero (cur endTs W : Int) (hW : 0 < W)
    (h : ¬ cur < endTs) : numWindows cur endTs W = 0 := by
  unfold numWindows
  have hD : (endTs - cur).toNat = 0 := by omega
  rw [hD]
  exact Nat.div_eq_of_lt (by omega)

theorem numWindows_one (cur endTs W : Int) (hW : 0 < W)
    (hlt : cur < endTs) (hle : ¬ cur + W < endTs) :
    numWindows cur endTs W = 1 := by
  unfold numWindows
  have h1 : (endTs - cur).toNat + W.toNat - 1 =
      ((endTs - cur).toNat - 1) + W.toNat := by omega
  rw [h1, Nat.add_div_right _ (by omega : 0 < W.toNat),
    Nat.div_eq_of_lt (by omega)]

theorem numWindows_succ (cur endTs W : Int) (hW : 0 < W)
    (hlt : cur + W < endTs) :
    numWindows cur endTs W = numWindows (cur + W) endTs W + 1 := by
  unfold numWindows
  have h1 : (endTs - cur).toNat + W.toNat - 1 =
      ((endTs - (cur + W)).toNat + W.toNat - 1) + W.toNat := by omega
  rw [h1, Nat.add_div_right _ (by omega : 0 < W.toNat)]

theorem windowsGo_closed (W : Int) (hW : 0 < W) (endTs : Int) :
    ∀ (fuel : Nat) (cur : Int), (endTs - cur).toNat ≤ fuel →
      windowsGo W endTs cur fuel =
        (List.range (numWindows cur endTs W)).map
          (fun i : Nat => (cur + (i : Int) * W,
            min (cur + ((i : Int) + 1) * W) endTs)) := by
  intro fuel
  induction fuel with
  | zero =>
    intro cur hf
    have hge : ¬ cur < endTs := by omega
    rw [windowsGo_of_ge _ _ _ hge, numWindows_zero _ _ _ hW hge]
    rfl
  | succ fuel ih =>
    intro cur hf
    by_cases hcur : cur < endTs
    · have hstep : windowsGo W endTs cur (fuel + 1) =
          (cur, min (cur + W) endTs) ::
            windowsGo W endTs (min (cur + W) endTs) fuel := by
        simp [windowsGo, hcur]
      rw [hstep]
      by_cases hW2 : cur + W < endTs
      · have hmin : min (cur + W) endTs = cur + W := by omega
        rw [hmin, ih (cur + W) (by omega),
          numWindows_succ _ _ _ hW hW2, List.range_succ_eq_map,
          List.map_cons, List.map_map]
        congr 1
        · simp [hmin]
        · apply List.map_congr_left
          intro i _
          simp only [Function.comp_apply, Prod.mk.injEq]
          refine ⟨by push_cast; ring, ?_⟩
          congr 1
          push_cast
          ring
      · have hmin : min (cur + W) endTs = endTs := by omega
        rw [hmin, windowsGo_of_ge _ _ _ (by omega) fuel,
          numWindows_one _ _ _ hW hcur hW2]
        have h1 : List.range 1 = [0] := rfl
        rw [h1, List.map_cons, List.map_nil]
        congr 1
        simp only [Prod.mk.injEq]
        refine ⟨by simp, ?_⟩
        simp
        omega
    · rw [windowsGo_of_ge _ _ _ hcur, numWindows_zero _ _ _ hW hcur]
      rfl

theorem windows_closed (startTs endTs W : Int) (hW : 0 < W) :
    windows startTs endTs W =
      (List.range (numWindows startTs endTs W)).map
        (fun i : Nat => (startTs + (i : Int) * W,
          min (startTs + ((i : Int) + 1) * W) endTs)) :=
  windowsGo_closed W hW endTs _ startTs (by omega)

theorem windows_length (startTs endTs W : Int) (hW : 0 < W) :
    (windows startTs endTs W).length = numWindows startTs endTs W := by
  rw [windows_closed _ _ _ hW]
  simp

theorem ceil_lt_aux (D Wn i : Nat) (hWn : 0 < Wn)
    (hi : i < (D + Wn - 1) / Wn) : i * Wn < D := by
  have hdm := Nat.div_add_mod (D + Wn - 1) Wn
  have hmlt : (D + Wn - 1) % Wn < Wn := Nat.mod_lt _ hWn
  have hmul : (i + 1) * Wn ≤ ((D + Wn - 1) / Wn) * Wn :=
    Nat.mul_le_mul_right _ hi
  have hcomm : ((D + Wn - 1) / Wn) * Wn = Wn * ((D + Wn - 1) / Wn) :=
    Nat.mul_comm _ _
  have hsm : (i + 1) * Wn = i * Wn + Wn := Nat.succ_mul _ _
  omega

theorem ceil_mul_ge_aux (D Wn : Nat) (hWn : 0 < Wn) :
    D ≤ ((D + Wn - 1) / Wn) * Wn := by
  have hdm := Nat.div_add_mod (D + Wn - 1) Wn
  have hmlt : (D + Wn - 1) % Wn < Wn := Nat.mod_lt _ hWn
  have hcomm : ((D + Wn - 1) / Wn) * Wn = Wn * ((D + Wn - 1) / Wn) :=
    Nat.mul_comm _ _
  omega

/-- Every index below `numWindows` starts strictly before `endTs`. -/
theorem numWindows_start_lt (startTs endTs W : Int) (hW : 0 < W)
    (i : Nat) (hi : i < numWindows startTs endTs W) :
    startTs + (i : Int) * W < endTs := by
  have hWn : 0 < W.toNat := by omega
  have hcast : (W.toNat : Int) = W := by omega
  have hi2 : i < ((endTs - startTs).toNat + W.toNat - 1) / W.toNat := hi
  have hlt := ceil_lt_aux (endTs - startTs).toNat W.toNat i hWn hi2
  have hz : ((i * W.toNat : Nat) : Int) <
      (((endTs - startTs).toNat : Nat) : Int) := by exact_mod_cast hlt
  push_cast at hz
  rw [hcast] at hz
  omega

/-- Fact: `numWindows * W` reaches `endTs`. -/
theorem numWindows_mul_ge (startTs endTs W : Int) (hW : 0 < W) :
    endTs ≤ startTs + ((numWindows startTs endTs W : Nat) : Int) * W := by
  have hWn : 0 < W.toNat := by omega
  have hcast : (W.toNat : Int) = W := by omega
  have hge := ceil_mul_ge_aux (endTs - startTs).toNat W.toNat hWn
  have hz : (((endTs - startTs).toNat : Nat) : Int) ≤
      ((((endTs - startTs).toNat + W.toNat - 1) / W.toNat * W.toNat : Nat) : Int) := by
    exact_mod_cast hge
  have hb : ((((endTs - startTs).toNat + W.toNat - 1) / W.toNat * W.toNat :
      Nat) : Int) =
      ((((endTs - startTs).toNat + W.toNat - 1) / W.toNat : Nat) : Int) * W := by
    simp only [Nat.cast_mul, hcast]
  rw [hb] at hz
  have hq : ((numWindows startTs endTs W : Nat) : Int) =
      ((((endTs - startTs).toNat + W.toNat - 1) / W.toNat : Nat) : Int) := rfl
  rw [hq]
  omega

theorem numWindows_pos (startTs endTs W : Int) (hW : 0 < W)
    (hlt : startTs < endTs) : 0 < numWindows startTs endTs W := by
  unfold numWindows
  have hWn : 0 < W.toNat := by omega
  have hD : 0 < (endTs - startTs).toNat := by omega
  exact Nat.div_pos (by omega) hWn

theorem windows_get (startTs endTs W : Int) (hW : 0 < W) (i : Nat)
    (h : i < (windows startTs endTs W).length) :
    (windows startTs endTs W).get ⟨i, h⟩ =
      (startTs + (i : Int) * W, min (startTs + ((i : Int) + 1) * W) endTs) := by
  have hcl := windows_closed startTs endTs W hW
  rw [List.get_of_eq hcl ⟨i, h⟩]
  simp [List.get_eq_getElem, List.getElem_map, List.getElem_range]

/-- C2: for start < end and window width `W = timeLimit*60*1000 > 0`,
the loop-generated window sequence satisfies the indexed formula
`window[i] = [start + iW, min(start + (i+1)W, end))`, consecutive
windows are contiguous, windows are pairwise non-overlapping, their
union is exactly `[start, end)`, and the last window ends at `end`. -/
theorem c2_window_partition (startTs endTs timeLimit W : Int)
    (hWdef : W = timeLimit * 60 * 1000) (hW : 0 < W)
    (hlt : startTs < endTs) :
    (∀ i : Nat, ∀ h : i < (windows startTs endTs W).length,
      (windows startTs endTs W).get ⟨i, h⟩ =
        (startTs + (i : Int) * W,
          min (startTs + ((i : Int) + 1) * W) endTs)) ∧
    (∀ i : Nat, ∀ h : i + 1 < (windows startTs endTs W).length,
      ((windows startTs endTs W).get ⟨i, by omega⟩).2 =
        ((windows startTs endTs W).get ⟨i + 1, h⟩).1) ∧
    (∀ i j : Nat, ∀ hi : i < (windows startTs endTs W).length,
      ∀ hj : j < (windows startTs endTs W).length, i < j →
      ((windows startTs endTs W).get ⟨i, hi⟩).2 ≤
        ((windows startTs endTs W).get ⟨j, hj⟩).1) ∧
    (∀ t : Int, (startTs ≤ t ∧ t < endTs) ↔
      ∃ p ∈ windows startTs endTs W, p.1 ≤ t ∧ t < p.2) ∧
    ((windows startTs endTs W ≠ []) ∧
      ∀ hne : windows startTs endTs W ≠ [],
        ((windows startTs endTs W).getLast hne).2 = endTs) := by
  have hlen := windows_length startTs endTs W hW
  refine ⟨windows_get startTs endTs W hW, ?_, ?_, ?_, ?_⟩
  · -- contiguity
    intro i h
    have hi : i < (windows startTs endTs W).length := by omega
    rw [windows_get startTs endTs W hW i hi,
      windows_get startTs endTs W hW (i + 1) h]
    have hstart := numWindows_start_lt startTs endTs W hW (i + 1) (by omega)
    push_cast
    push_cast at hstart
    omega
  · -- pairwise non-overlap
    intro i j hi hj hij
    rw [windows_get startTs endTs W hW i hi,
      windows_get startTs endTs W hW j hj]
    have hcast : ((i : Int) + 1) ≤ (j : Int) := by exact_mod_cast hij
    have hmul : ((i : Int) + 1) * W ≤ (j : Int) * W :=
      mul_le_mul_of_nonneg_right hcast (le_of_lt hW)
    simp only
    omega
  · -- exact union
    intro t
    constructor
    · rintro ⟨hts, hte⟩
      have hdm := Int.ediv_add_emod (t - startTs) W
      have hr0 := Int.emod_nonneg (t - startTs) (by omega : W ≠ 0)
      have hrlt := Int.emod_lt_of_pos (t - startTs) hW
      set q := (t - startTs) / W with hqdef
      have hq0 : 0 ≤ q := Int.ediv_nonneg (by omega) (le_of_lt hW)
      have hqt : ((q.toNat : Nat) : Int) = q := by omega
      have hcm : q * W = W * q := mul_comm _ _
      have hin : q.toNat < numWindows startTs endTs W := by
        by_contra hcon
        push_neg at hcon
        have hmono : ((numWindows startTs endTs W : Nat) : Int) ≤
            ((q.toNat : Nat) : Int) := by exact_mod_cast hcon
        have hge := numWindows_mul_ge startTs endTs W hW
        have hmul2 : ((numWindows startTs endTs W : Nat) : Int) * W ≤
            ((q.toNat : Nat) : Int) * W :=
          mul_le_mul_of_nonneg_right hmono (le_of_lt hW)
        rw [hqt] at hmul2
        omega
      refine ⟨(startTs + (q.toNat : Int) * W,
        min (startTs + ((q.toNat : Int) + 1) * W) endTs), ?_, ?_⟩
      · rw [windows_closed startTs endTs W hW]
        exact List.mem_map_of_mem _ (List.mem_range.mpr hin)
      · have hplus : (q + 1) * W = q * W + W := by ring
        rw [hqt]
        constructor
        · omega
        · simp only
          omega
    · rintro ⟨p, hp, hp1, hp2⟩
      rw [windows_closed startTs endTs W hW] at hp
      obtain ⟨i, hi, hpe⟩ := List.mem_map.mp hp
      subst hpe
      simp only at hp1 hp2
      have hmul : (0 : Int) ≤ (i : Int) * W :=
        mul_nonneg (by exact_mod_cast Nat.zero_le i) (le_of_lt hW)
      omega
  · -- last window ends at endTs
    have hpos := numWindows_pos startTs endTs W hW hlt
    have hne : windows startTs endTs W ≠ [] := by
      intro hcon
      have := congrArg List.length hcon
      simp only [List.length_nil] at this
      omega
    refine ⟨hne, fun hne2 => ?_⟩
    have hlast : (windows startTs endTs W).getLast hne2 =
        (windows startTs endTs W).get
          ⟨(windows startTs endTs W).length - 1, by omega⟩ := by
      rw [List.getLast_eq_getElem]
      simp [List.get_eq_getElem]
    rw [hlast, windows_get startTs endTs W hW _ (by omega)]
    have hge := numWindows_mul_ge startTs endTs W hW
    have hidx : (((windows startTs endTs W).length - 1 : Nat) : Int) + 1 =
        ((numWindows startTs endTs W : Nat) : Int) := by omega
    simp only
    rw [hidx]
    omega

def isFetch : Ev → Bool
  | .fetch _ _ _ _ => true
  | _ => false

theorem rowsOfResponse_no_fetch (did : Option String)
    (resp : List (String × List DataPoint)) :
    (rowsOfResponse did resp).filter isFetch = [] := by
  rw [List.filter_eq_nil_iff]
  intro ev hev
  unfold rowsOfResponse at hev
  rw [List.mem_flatten] at hev
  obtain ⟨l, hl, hevl⟩ := hev
  rw [List.mem_map] at hl
  obtain ⟨p, hp, hpe⟩ := hl
  subst hpe
  rw [List.mem_map] at hevl
  obtain ⟨dp, hdp, hdpe⟩ := hevl
  subst hdpe
  simp [isFetch]

/-- One fetch attempt is recorded per loop iteration. -/
theorem exportWindows_fetch_count (c : Client) (did : Option String)
    (keys : String) (lim : Nat) (W endTs : Int) :
    ∀ (fuel : Nat) (cur : Int),
      ((exportWindows c did keys lim W endTs cur fuel).filter
        isFetch).length = (windowsGo W endTs cur fuel).length := by
  intro fuel
  induction fuel with
  | zero => intro cur; rfl
  | succ fuel ih =>
    intro cur
    by_cases hcur : cur < endTs
    · simp only [exportWindows, windowsGo, hcur, if_true]
      rw [List.filter_append]
      cases hOUT : fetch_timeseries c did keys cur (min (cur + W) endTs) lim with
      | error e =>
        simp only [List.filter_cons, List.filter_nil]
        rw [show isFetch (Ev.fetch did keys cur (min (cur + W) endTs)) =
          true from rfl]
        simp [ih]
      | ok resp =>
        simp only [List.filter_cons]
        rw [show isFetch (Ev.fetch did keys cur (min (cur + W) endTs)) =
          true from rfl]
        simp only [if_true, rowsOfResponse_no_fetch]
        simp [ih]
    · simp [exportWindows, windowsGo, hcur]

/-- C10: for start < end and timeLimit at least one minute, the window
loop terminates (its result is fuel-independent from `(end-start)`
onwards), iterates exactly `ceil((end-start)/W)` times where
`W = timeLimit*60*1000`, each window advances the cursor by
`min(W, end - cur) > 0`, and the export loop performs exactly one
fetch attempt per window. -/
theorem c10_pagination_terminates (startTs endTs timeLimit W : Int)
    (hWdef : W = timeLimit * 60 * 1000) (htl : 1 ≤ timeLimit)
    (hlt : startTs < endTs) :
    (0 < W) ∧
    (∀ fuel : Nat, (endTs - startTs).toNat ≤ fuel →
      windowsGo W endTs startTs fuel = windows startTs endTs W) ∧
    ((windows startTs endTs W).length =
      ((endTs - startTs).toNat + W.toNat - 1) / W.toNat) ∧
    (∀ p ∈ windows startTs endTs W,
      p.2 = min (p.1 + W) endTs ∧ p.1 < p.2) ∧
    (∀ (c : Client) (did : Option String) (keys : String) (lim : Nat),
      ((exportWindows c did keys lim W endTs startTs
          ((endTs - startTs).toNat + 1)).filter isFetch).length =
        (windows startTs endTs W).length) := by
  have hW : 0 < W := by omega
  refine ⟨hW, ?_, ?_, ?_, ?_⟩
  · intro fuel hf
    rw [windowsGo_closed W hW endTs fuel startTs hf, windows_closed _ _ _ hW]
  · rw [windows_length _ _ _ hW]
    rfl
  · intro p hp
    rw [windows_closed _ _ _ hW] at hp
    obtain ⟨i, hi, hpe⟩ := List.mem_map.mp hp
    rw [List.mem_range] at hi
    subst hpe
    have hstart := numWindows_start_lt startTs endTs W hW i hi
    have hx : ((i : Int) + 1) * W = (i : Int) * W + W := by ring
    constructor
    · simp only
      congr 1
      ring
    · simp only
      omega
  · intro c did keys lim
    exact exportWindows_fetch_count c did keys lim W endTs _ startTs

/-- C10 witness: a concrete 150-second range with one-minute windows
splits into three windows. -/
theorem c10_pagination_witness :
    (windows 0 150000 60000).length =
      (((150000 : Int) - 0).toNat + (60000 : Int).toNat - 1) /
        (60000 : Int).toNat ∧
    (windows 0 150000 60000).length = 3 :=
  ⟨(c10_pagination_terminates 0 150000 1 60000 rfl (by norm_num)
    (by norm_num)).2.2.1, by rfl⟩

/-- C5: `infer_type_and_convert` follows a first-match decision order:
case-insensitive `true`/`false` gives a boolean; otherwise a
successful int parse gives an int; otherwise a successful float parse
gives a double; otherwise a successful structured parse after quote
normalization gives json; otherwise the original text with tag
`string`.  The function is total by construction (every parser is
`Option`-valued, so nothing escapes to the caller) and its tag is
always one of the five. -/
theorem c5_infer_decision_order (t : String) :
    (pyLower t = "true" →
      infer_type_and_convert t = (.bool true, "boolean")) ∧
    (pyLower t = "false" →
      infer_type_and_convert t = (.bool false, "boolean")) ∧
    (∀ n, pyLower t ≠ "true" → pyLower t ≠ "false" → pyInt t = some n →
      infer_type_and_convert t = (.int n, "int")) ∧
    (∀ f, pyLower t ≠ "true" → pyLower t ≠ "false" →
      pyInt t = Option.none → pyFloat t = some f →
      infer_type_and_convert t = (.float f, "double")) ∧
    (∀ v, pyLower t ≠ "true" → pyLower t ≠ "false" →
      pyInt t = Option.none → pyFloat t = Option.none →
      pyJson (quoteNormalize t) = some v →
      infer_type_and_convert t = (v, "json")) ∧
    (pyLower t ≠ "true" → pyLower t ≠ "false" → pyInt t = Option.none →
      pyFloat t = Option.none → pyJson (quoteNormalize t) = Option.none →
      infer_type_and_convert t = (.str t, "string")) ∧
    ((infer_type_and_convert t).2 = "boolean" ∨
     (infer_type_and_convert t).2 = "int" ∨
     (infer_type_and_convert t).2 = "double" ∨
     (infer_type_and_convert t).2 = "json" ∨
     (infer_type_and_convert t).2 = "string") := by
  refine ⟨?_, ?_, ?_, ?_, ?_, ?_, ?_⟩
  · intro h1
    simp [infer_type_and_convert, h1]
  · intro h2
    by_cases h1 : pyLower t = "true"
    · rw [h1] at h2
      exact absurd h2 (by decide)
    · simp [infer_type_and_convert, h1, h2]
  · intro n h1 h2 hInt
    simp [infer_type_and_convert, h1, h2, hInt]
  · intro f h1 h2 hInt hFloat
    simp [infer_type_and_convert, h1, h2, hInt, hFloat]
  · intro v h1 h2 hInt hFloat hJson
    simp [infer_type_and_convert, h1, h2, hInt, hFloat, hJson]
  · intro h1 h2 hInt hFloat hJson
    simp [infer_type_and_convert, h1, h2, hInt, hFloat, hJson]
  · by_cases h1 : pyLower t = "true"
    · simp [infer_type_and_convert, h1]
    · by_cases h2 : pyLower t = "false"
      · simp [infer_type_and_convert, h1, h2]
      · cases hInt : pyInt t with
        | some n => simp [infer_type_and_convert, h1, h2, hInt]
        | none =>
          cases hFloat : pyFloat t with
          | some f => simp [infer_type_and_convert, h1, h2, hInt, hFloat]
          | none =>
            cases hJson : pyJson (quoteNormalize t) with
            | some v => simp [infer_type_and_convert, h1, h2, hInt, hFloat, hJson]
            | none => simp [infer_type_and_convert, h1, h2, hInt, hFloat, hJson]

/-- C5 witness: the first branch fires on a concrete uppercase
boolean. -/
theorem c5_infer_witness :
    pyLower "TRUE" = "true" ∧
    infer_type_and_convert "TRUE" = (.bool true, "boolean") :=
  ⟨rfl, (c5_infer_decision_order "TRUE").1 rfl⟩

theorem retryCall_three_fail {A : Type} (f : Nat → Except Unit A)
    (hfail : ∀ n, f n = .error ()) :
    retryCall 3 2 f = (.error (), 3, [2, 2]) := by
  unfold retryCall
  unfold retryGo
  rw [hfail 0]
  simp only [if_neg (by omega : ¬ (2 : Nat) = 0)]
  unfold retryGo
  rw [hfail 1]
  simp only [if_neg (by omega : ¬ (1 : Nat) = 0)]
  unfold retryGo
  rw [hfail 2]
  simp

/-- C6: a wrapped remote call whose underlying operation fails on
every attempt is invoked exactly 3 times with a fixed wait of 2
between consecutive attempts (no growth), then the failure is
surfaced; this applies to the per-window fetch and to the
per-time-point write. -/
theorem c6_retry_policy {A : Type} (f : Nat → Except Unit A)
    (c : Client) (did : Option String) (keys : String) (s e : Int)
    (lim : Nat) (devId : String) (ts : Int)
    (vals : List (String × PyVal))
    (hfail : ∀ n, f n = .error ()) :
    retryCall 3 2 f = (.error (), 3, [2, 2]) ∧
    (c.getTimeseries did keys s e lim = .error () →
      retryCall 3 2 (fun _ => c.getTimeseries did keys s e lim) =
        (.error (), 3, [2, 2]) ∧
      fetch_timeseries c did keys s e lim = .error ()) ∧
    (c.saveEntityTelemetry devId ts vals = .error () →
      retryCall 3 2 (fun _ => c.saveEntityTelemetry devId ts vals) =
        (.error (), 3, [2, 2]) ∧
      save_telemetry c devId ts vals = .error ()) := by
  refine ⟨retryCall_three_fail f hfail, ?_, ?_⟩
  · intro hferr
    have h3 := retryCall_three_fail
      (fun _ => c.getTimeseries did keys s e lim) (fun _ => hferr)
    refine ⟨h3, ?_⟩
    unfold fetch_timeseries
    rw [h3]
  · intro hserr
    have h3 := retryCall_three_fail
      (fun _ => c.saveEntityTelemetry devId ts vals) (fun _ => hserr)
    refine ⟨h3, ?_⟩
    unfold save_telemetry
    rw [h3]

/-- C6 witness: a concrete always-failing fetch is attempted exactly
three times with waits `[2, 2]` and the failure is surfaced. -/
theorem c6_retry_witness :
    retryCall 3 2 (fun _ => (.error () : Except Unit Unit)) =
      (.error (), 3, [2, 2]) ∧
    fetch_timeseries
      ⟨fun _ => Option.none, fun _ => .error (),
        fun _ _ _ _ _ => .error (), fun _ _ _ => .error ()⟩
      Option.none "" 0 1 1 = .error () :=
  ⟨(c6_retry_policy (fun _ => (.error () : Except Unit Unit))
      ⟨fun _ => Option.none, fun _ => .error (),
        fun _ _ _ _ _ => .error (), fun _ _ _ => .error ()⟩
      Option.none "" 0 1 1 "" 0 [] (fun _ => rfl)).1,
   ((c6_retry_policy (fun _ => (.error () : Except Unit Unit))
      ⟨fun _ => Option.none, fun _ => .error (),
        fun _ _ _ _ _ => .error (), fun _ _ _ => .error ()⟩
      Option.none "" 0 1 1 "" 0 [] (fun _ => rfl)).2.1 rfl).2⟩

/-- A client on which the device name `ghost` does not resolve while
`real` does, and key discovery fails for an absent entity id, as the
real service does. -/
def c3client : Client where
  getTenantDevice := fun n => if n = "real" then some "id1" else Option.none
  getTimeseriesKeys := fun did => if did = some "id1" then .ok ["k"] else .error ()
  getTimeseries := fun _ _ _ _ _ => .ok []
  saveEntityTelemetry := fun _ _ _ => .ok ()

/-- C3 (code bug, evaluated at the failing input): `get_device_id`
returns `None` for `ghost`, but the export loop never checks it — key
discovery is invoked with the unresolved `None` id, and when that call
raises the whole run aborts: the trace ends at the discovery event,
the run flag is `false`, and the resolvable device `real` is never
processed.  The claim (skip the device, no key discovery, continue
with the next) describes the evident intent of `get_device_id`'s
log-and-return-`None` handler, not the behaviour. -/
theorem c3_unresolved_device_not_skipped :
    get_device_id c3client "ghost" = Option.none ∧
    export_timeseries c3client 0 100000 "ghost,real" Option.none 10 1 =
      ([Ev.header, Ev.resolve "ghost" Option.none,
        Ev.keyDiscovery Option.none], false) :=
  ⟨rfl, rfl⟩

/-- A client that resolves everything and accepts every write: only
the import rows decide the outcome. -/
def c4client : Client where
  getTenantDevice := fun _ => some "id1"
  getTimeseriesKeys := fun _ => .ok ["k"]
  getTimeseries := fun _ _ _ _ _ => .ok []
  saveEntityTelemetry := fun _ _ _ => .ok ()

/-- C4 counterexample: one record with a non-numeric value under tag
`int` aborts the entire import run (`int(value)` on line 138 is not
guarded), so the well-formed record that follows it is never saved —
the claim promised the bad record would be dropped and the rest
processed. -/
theorem c4_import_abort_cex :
    import_timeseries c4client
      [⟨"d1", "temp", "1000", "23.5", "double"⟩,
       ⟨"d1", "k", "1000", "abc", "int"⟩,
       ⟨"d1", "temp", "1001", "1", "int"⟩] = .error () := by
  rfl

theorem decodeValue_raises_iff (value ty : String)
    (h : decodeValue value ty = .raises) :
    (ty = "int" ∧ pyInt value = Option.none) ∨
    (ty = "double" ∧ pyFloat value = Option.none) := by
  unfold decodeValue at h
  by_cases h1 : ty = "boolean"
  · rw [if_pos h1] at h
    simp at h
  · rw [if_neg h1] at h
    by_cases h2 : ty = "int"
    · rw [if_pos h2] at h
      cases hInt : pyInt value with
      | some n => rw [hInt] at h; simp at h
      | none => exact Or.inl ⟨h2, rfl⟩
    · rw [if_neg h2] at h
      by_cases h3 : ty = "double"
      · rw [if_pos h3] at h
        cases hFloat : pyFloat value with
        | some f => rw [hFloat] at h; simp at h
        | none => exact Or.inr ⟨h3, rfl⟩
      · rw [if_neg h3] at h
        by_cases h4 : ty = "json"
        · rw [if_pos h4] at h
          cases hJson : pyJson (quoteNormalize value) with
          | some v => rw [hJson] at h; simp at h
          | none => rw [hJson] at h; simp at h
        · rw [if_neg h4] at h
          simp at h

theorem exportDevices_ok_of_keys (c : Client) (s e W : Int)
    (lim fuel : Nat) : ∀ (ds : List String) (keys : Option String),
    keys.getD "" ≠ "" →
    (exportDevices c s e W lim fuel ds keys).2 = true := by
  intro ds
  induction ds with
  | nil => intro keys _; rfl
  | cons name rest ih =>
    intro keys hk
    unfold exportDevices
    rw [if_neg hk]
    exact ih keys hk

theorem parseRows_ok (rows : List CsvRow) :
    ∀ td, (∀ r ∈ rows, (∃ n, pyInt r.ts = some n) ∧
      (r.type = "int" → ∃ n, pyInt r.value = some n) ∧
      (r.type = "double" → ∃ f, pyFloat r.value = some f)) →
    ∃ td2, parseRows rows td = .ok td2 := by
  induction rows with
  | nil => intro td _; exact ⟨td, rfl⟩
  | cons r rest ih =>
    intro td h
    obtain ⟨⟨n, hts⟩, hint, hdouble⟩ := h r (List.mem_cons_self r rest)
    have hrest : ∀ x ∈ rest, (∃ n, pyInt x.ts = some n) ∧
        (x.type = "int" → ∃ n, pyInt x.value = some n) ∧
        (x.type = "double" → ∃ f, pyFloat x.value = some f) :=
      fun x hx => h x (List.mem_cons_of_mem r hx)
    unfold parseRows
    rw [hts]
    cases hdec : decodeValue r.value r.type with
    | raises =>
      rcases decodeValue_raises_iff r.value r.type hdec with
        ⟨hty, hnone⟩ | ⟨hty, hnone⟩
      · obtain ⟨m, hm⟩ := hint hty
        rw [hm] at hnone
        cases hnone
      · obtain ⟨f, hf⟩ := hdouble hty
        rw [hf] at hnone
        cases hnone
    | drop => exact ih td hrest
    | ok v => exact ih _ hrest

/-- C4 amended: the exception-isolation policy the code actually
implements.  On export, the per-window body is guarded by a broad
`except`, so fetch failures never abort the run (whenever key
discovery is not needed — an explicit non-empty key list was given).
On import, only a json decode failure (record dropped) and a save
failure (time-point skipped) are isolated: whenever every row has a
numeric `ts` and int/double values that parse, the run completes and
returns a result, regardless of how many saves fail.  A malformed
`ts`, or a non-numeric value under tag int or double, instead raises
and aborts the whole import (see the counterexample). -/
theorem c4_exception_isolation (c : Client) :
    (∀ (startTs endTs : Int) (names k : String) (lim : Nat) (tl : Int),
      k ≠ "" →
      (export_timeseries c startTs endTs names (some k) lim tl).2 = true) ∧
    (∀ rows : List CsvRow,
      (∀ r ∈ rows, (∃ n, pyInt r.ts = some n) ∧
        (r.type = "int" → ∃ n, pyInt r.value = some n) ∧
        (r.type = "double" → ∃ f, pyFloat r.value = some f)) →
      ∃ evs, import_timeseries c rows = .ok evs) := by
  constructor
  · intro startTs endTs names k lim tl hk
    exact exportDevices_ok_of_keys c startTs endTs (tl * 60 * 1000) lim
      ((endTs - startTs).toNat + 1) (splitComma names) (some k) hk
  · intro rows hrows
    obtain ⟨td2, htd⟩ := parseRows_ok rows [] hrows
    unfold import_timeseries
    rw [htd]
    exact ⟨_, rfl⟩

/-- C4 witness: with an explicit key list the export run completes,
and a well-formed import row is processed. -/
theorem c4_exception_isolation_witness :
    (export_timeseries c4client 0 10 "a" (some "k") 1 1).2 = true ∧
    ∃ evs, import_timeseries c4client [⟨"d", "k", "1", "2", "int"⟩] =
      .ok evs :=
  ⟨(c4_exception_isolation c4client).1 0 10 "a" "k" 1 1 (by decide),
   (c4_exception_isolation c4client).2 [⟨"d", "k", "1", "2", "int"⟩]
     (by
       intro r hr
       simp at hr
       subst hr
       exact ⟨⟨1, rfl⟩, fun _ => ⟨2, rfl⟩, fun hcon => absurd hcon (by decide)⟩)⟩

def isKeyDiscovery : Ev → Bool
  | .keyDiscovery _ => true
  | _ => false

/-- The keys argument of a fetch event. -/
def fetchKeys : Ev → Option String
  | .fetch _ k _ _ => some k
  | _ => Option.none

theorem mem_rowsOfResponse (did : Option String)
    (resp : List (String × List DataPoint)) (ev : Ev)
    (h : ev ∈ rowsOfResponse did resp) :
    ∃ k ts v ty, ev = Ev.row did k ts v ty := by
  unfold rowsOfResponse at h
  rw [List.mem_flatten] at h
  obtain ⟨l, hl, hevl⟩ := h
  rw [List.mem_map] at hl
  obtain ⟨p, hp, hpe⟩ := hl
  subst hpe
  rw [List.mem_map] at hevl
  obtain ⟨dp, hdp, hdpe⟩ := hevl
  exact ⟨p.1, dp.ts, _, _, hdpe.symm⟩

theorem exportWindows_no_discovery (c : Client) (did : Option String)
    (keys : String) (lim : Nat) (W endTs : Int) :
    ∀ (fuel : Nat) (cur : Int),
      (exportWindows c did keys lim W endTs cur fuel).filter
        isKeyDiscovery = [] := by
  intro fuel
  induction fuel with
  | zero => intro cur; rfl
  | succ fuel ih =>
    intro cur
    by_cases hcur : cur < endTs
    · simp only [exportWindows, hcur, if_true]
      rw [List.filter_append]
      cases hOUT : fetch_timeseries c did keys cur (min (cur + W) endTs) lim with
      | error e => simp [isKeyDiscovery, ih]
      | ok resp =>
        simp only [List.filter_cons]
        rw [show isKeyDiscovery
          (Ev.fetch did keys cur (min (cur + W) endTs)) = false from rfl]
        simp only [if_false, Bool.false_eq_true]
        have hrows : (rowsOfResponse did resp).filter isKeyDiscovery = [] := by
          rw [List.filter_eq_nil_iff]
          intro ev hev
          obtain ⟨k, ts, v, ty, hevr⟩ := mem_rowsOfResponse did resp ev hev
          subst hevr
          simp [isKeyDiscovery]
        simp [hrows, ih]
    · simp [exportWindows, hcur]

theorem exportWindows_fetch_keys (c : Client) (did : Option String)
    (keys : String) (lim : Nat) (W endTs : Int) :
    ∀ (fuel : Nat) (cur : Int) (kk : String),
      kk ∈ (exportWindows c did keys lim W endTs cur fuel).filterMap
        fetchKeys → kk = keys := by
  intro fuel
  induction fuel with
  | zero => intro cur kk h; cases h
  | succ fuel ih =>
    intro cur kk h
    by_cases hcur : cur < endTs
    · simp only [exportWindows, hcur, if_true] at h
      rw [List.filterMap_append] at h
      rcases List.mem_append.mp h with h1 | h2
      · cases hOUT : fetch_timeseries c did keys cur
          (min (cur + W) endTs) lim with
        | error e =>
          rw [hOUT] at h1
          simp [fetchKeys] at h1
          exact h1
        | ok resp =>
          rw [hOUT] at h1
          simp only [List.filterMap_cons] at h1
          rw [show fetchKeys (Ev.fetch did keys cur (min (cur + W) endTs)) =
            some keys from rfl] at h1
          rcases List.mem_cons.mp h1 with he | hrows
          · exact he
          · exfalso
            rw [List.mem_filterMap] at hrows
            obtain ⟨ev, hev, hevk⟩ := hrows
            obtain ⟨k, ts, v, ty, hevr⟩ := mem_rowsOfResponse did resp ev hev
            subst hevr
            cases hevk
      · exact ih _ kk h2
    · simp [exportWindows, hcur] at h

theorem exportDevices_no_discovery_of_keys (c : Client) (s e W : Int)
    (lim fuel : Nat) : ∀ (ds : List String) (keys : Option String),
    keys.getD "" ≠ "" →
    (exportDevices c s e W lim fuel ds keys).1.filter isKeyDiscovery = [] := by
  intro ds
  induction ds with
  | nil => intro keys _; rfl
  | cons name rest ih =>
    intro keys hk
    unfold exportDevices
    rw [if_neg hk]
    simp only [List.filter_cons]
    rw [show isKeyDiscovery (Ev.resolve name (get_device_id c name)) =
      false from rfl]
    simp only [if_false, Bool.false_eq_true, List.filter_append]
    rw [exportWindows_no_discovery, ih keys hk]
    rfl

theorem exportDevices_fetch_keys_of_keys (c : Client) (s e W : Int)
    (lim fuel : Nat) : ∀ (ds : List String) (k : String), k ≠ "" →
    ∀ kk ∈ (exportDevices c s e W lim fuel ds (some k)).1.filterMap
      fetchKeys, kk = k := by
  intro ds
  induction ds with
  | nil => intro k _ kk h; cases h
  | cons name rest ih =>
    intro k hkne kk h
    unfold exportDevices at h
    rw [if_neg (by simpa using hkne)] at h
    simp only [List.filterMap_cons] at h
    rw [show fetchKeys (Ev.resolve name (get_device_id c name)) =
      Option.none from rfl] at h
    rw [List.filterMap_append] at h
    rcases List.mem_append.mp h with h1 | h2
    · exact exportWindows_fetch_keys c _ _ lim W e fuel s kk h1
    · exact ih k hkne kk h2

/-- A client whose first device resolves but owns no telemetry keys;
the second device owns the key `k`. -/
def c8client : Client where
  getTenantDevice := fun n => if n = "a" then some "ia" else some "ib"
  getTimeseriesKeys := fun did => if did = some "ia" then .ok [] else .ok ["k"]
  getTimeseries := fun _ _ _ _ _ => .ok []
  saveEntityTelemetry := fun _ _ _ => .ok ()

/-- C8 counterexample: a run with no explicit key list and two device
names in which key discovery runs twice.  The first device's key set
is empty, so the joined string is `''`, which is falsy — the `if not
keys` test fires again for the second device, contradicting the claim
that discovery happens exactly once and is never re-invoked. -/
theorem c8_key_discovery_cex :
    (export_timeseries c8client 0 1 "a,b" Option.none 10 1).1.filter
      isKeyDiscovery =
      [Ev.keyDiscovery (some "ia"), Ev.keyDiscovery (some "ib")] := by
  rfl

/-- C8 amended: if the first device's discovered key list joins to a
non-empty string, discovery runs exactly once — for the first device —
and every subsequent fetch in the run reuses that same joined string
unchanged. -/
theorem c8_single_discovery (c : Client) (s e tl : Int) (lim : Nat)
    (deviceNames name : String) (rest : List String) (ks : List String)
    (hsplit : splitComma deviceNames = name :: rest)
    (hdisc : c.getTimeseriesKeys (get_device_id c name) = .ok ks)
    (hne : joinComma ks ≠ "") :
    (export_timeseries c s e deviceNames Option.none lim tl).1.filter
      isKeyDiscovery = [Ev.keyDiscovery (get_device_id c name)] ∧
    ∀ kk ∈ (export_timeseries c s e deviceNames Option.none lim
      tl).1.filterMap fetchKeys, kk = joinComma ks := by
  have hall : get_all_keys c (get_device_id c name) = .ok (joinComma ks) := by
    unfold get_all_keys
    rw [hdisc]
    rfl
  constructor
  · simp only [export_timeseries, hsplit, exportDevices]
    rw [hall]
    simp only [Option.getD_none, List.filter_cons, List.filter_append,
      isKeyDiscovery, Bool.false_eq_true, if_false, if_true,
      exportWindows_no_discovery,
      exportDevices_no_discovery_of_keys c s e (tl * 60 * 1000) lim
        ((e - s).toNat + 1) rest (some (joinComma ks)) (by simpa using hne)]
    rfl
  · intro kk hkk
    simp only [export_timeseries, hsplit, exportDevices] at hkk
    rw [hall] at hkk
    simp only [Option.getD_none, List.filterMap_cons, List.filterMap_append,
      fetchKeys, if_false, if_true, Bool.false_eq_true] at hkk
    rcases List.mem_append.mp hkk with h1 | h2
    · exact exportWindows_fetch_keys c _ _ lim (tl * 60 * 1000) e _ s kk h1
    · exact exportDevices_fetch_keys_of_keys c s e (tl * 60 * 1000) lim
        ((e - s).toNat + 1) rest (joinComma ks) hne kk h2

/-- C8 witness: with a non-empty discovered list, a two-device run
performs exactly one key discovery. -/
theorem c8_single_discovery_witness :
    (export_timeseries c4client 0 1 "a,b" Option.none 10 1).1.filter
      isKeyDiscovery = [Ev.keyDiscovery (some "id1")] :=
  (c8_single_discovery c4client 0 1 1 10 "a,b" "a" ["b"] ["k"] rfl rfl
    (by decide)).1

theorem retryCall_const {A : Type} (r : Except Unit A) :
    (retryCall 3 2 (fun _ => r)).1 = r := by
  cases r <;> rfl

/-- The retry wrapper around the deterministic modelled client returns
what the underlying call returns. -/
theorem fetch_timeseries_eq (c : Client) (did : Option String)
    (keys : String) (s e : Int) (lim : Nat) :
    fetch_timeseries c did keys s e lim = c.getTimeseries did keys s e lim :=
  retryCall_const _

theorem save_telemetry_eq (c : Client) (devId : String) (ts : Int)
    (vals : List (String × PyVal)) :
    save_telemetry c devId ts vals = c.saveEntityTelemetry devId ts vals :=
  retryCall_const _

/-- Non-decreasing check on an integer list. -/
def nondecr : List Int → Bool
  | [] => true
  | [_] => true
  | x :: y :: r => x ≤ y && nondecr (y :: r)

def rowTs : Ev → Option Int
  | .row _ _ ts _ _ => some ts
  | _ => Option.none

/-- The timestamp of a row event carrying the key `k`. -/
def rowTsOfKey (k : String) : Ev → Option Int
  | .row _ key ts _ _ => if key = k then some ts else Option.none
  | _ => Option.none

/-- A client whose only fetch response holds two keys: the first with
ascending points at 100 and 900, the second with a point at 150. -/
def c7client : Client where
  getTenantDevice := fun _ => some "id1"
  getTimeseriesKeys := fun _ => .ok ["k1", "k2"]
  getTimeseries := fun _ _ _ _ _ =>
    .ok [("k1", [⟨100, "1"⟩, ⟨900, "2"⟩]), ("k2", [⟨150, "3"⟩])]
  saveEntityTelemetry := fun _ _ _ => .ok ()

/-- C7 counterexample: the fetch returns each key's points in
ascending ts order, yet the emitted record stream for the device is
`[100, 900, 150]` — not non-decreasing, because the loop writes all of
one key's points before the next key's (source lines 98-105), so
cross-key interleaving by ts does not hold even within one window. -/
theorem c7_ordering_cex :
    (∀ p ∈ [("k1", [(⟨100, "1"⟩ : DataPoint), ⟨900, "2"⟩]),
        ("k2", [(⟨150, "3"⟩ : DataPoint)])],
      nondecr (p.2.map DataPoint.ts) = true) ∧
    (export_timeseries c7client 0 1000 "dev" (some "k1,k2") 10 1).1.filterMap
      rowTs = [100, 900, 150] ∧
    nondecr [100, 900, 150] = false := by
  refine ⟨by decide, rfl, rfl⟩

theorem rowsOfResponse_key_flatten (did : Option String) (k : String)
    (resp : List (String × List DataPoint)) :
    (rowsOfResponse did resp).filterMap (rowTsOfKey k) =
      (resp.map (fun p =>
        if p.1 = k then p.2.map DataPoint.ts else [])).flatten := by
  induction resp with
  | nil => rfl
  | cons p rest ih =>
    unfold rowsOfResponse
    simp only [List.map_cons, List.flatten_cons, List.filterMap_append]
    unfold rowsOfResponse at ih
    rw [ih, List.filterMap_map]
    congr 1
    by_cases hk : p.1 = k
    · rw [if_pos hk]
      rw [List.filterMap_eq_map_iff_forall_eq_some.mpr ?_]
      intro dp _
      simp [Function.comp_apply, rowTsOfKey, hk]
    · rw [if_neg hk]
      rw [List.filterMap_eq_nil_iff.mpr ?_]
      intro dp _
      simp [Function.comp_apply, rowTsOfKey, hk]

theorem key_flatten_of_not_mem (k : String)
    (resp : List (String × List DataPoint)) (h : k ∉ resp.map Prod.fst) :
    (resp.map (fun p =>
      if p.1 = k then p.2.map DataPoint.ts else [])).flatten = [] := by
  induction resp with
  | nil => rfl
  | cons p rest ih =>
    simp only [List.map_cons, List.mem_cons] at h
    push_neg at h
    simp only [List.map_cons, List.flatten_cons]
    rw [if_neg (fun hc => h.1 hc.symm), ih h.2]
    rfl

/-- Within one response, the per-key timestamp stream is the unique
matching entry's ts list: sorted and in-window under the response
hypotheses. -/
theorem response_key_sorted (k : String) (s e : Int)
    (resp : List (String × List DataPoint))
    (hnd : (resp.map Prod.fst).Nodup)
    (hsorted : ∀ p ∈ resp, List.Sorted (· ≤ ·) (p.2.map DataPoint.ts) ∧
      ∀ dp ∈ p.2, s ≤ dp.ts ∧ dp.ts < e) :
    List.Sorted (· ≤ ·) ((resp.map (fun p =>
      if p.1 = k then p.2.map DataPoint.ts else [])).flatten) ∧
    ∀ t ∈ (resp.map (fun p =>
      if p.1 = k then p.2.map DataPoint.ts else [])).flatten,
      s ≤ t ∧ t < e := by
  induction resp with
  | nil => exact ⟨List.sorted_nil, by intro t ht; cases ht⟩
  | cons p rest ih =>
    simp only [List.map_cons, List.nodup_cons] at hnd
    obtain ⟨hp, hrest⟩ := hnd
    have hihyp : ∀ q ∈ rest, List.Sorted (· ≤ ·) (q.2.map DataPoint.ts) ∧
        ∀ dp ∈ q.2, s ≤ dp.ts ∧ dp.ts < e :=
      fun q hq => hsorted q (List.mem_cons_of_mem p hq)
    obtain ⟨hps, hpb⟩ := hsorted p (List.mem_cons_self p rest)
    simp only [List.map_cons, List.flatten_cons]
    by_cases hk : p.1 = k
    · rw [if_pos hk]
      have hnm : k ∉ rest.map Prod.fst := by
        rw [← hk]
        exact hp
      rw [key_flatten_of_not_mem k rest hnm, List.append_nil]
      refine ⟨hps, ?_⟩
      intro t ht
      rw [List.mem_map] at ht
      obtain ⟨dp, hdp, hdpe⟩ := ht
      rw [← hdpe]
      exact hpb dp hdp
    · rw [if_neg hk, List.nil_append]
      exact ih hrest hihyp

/-- C7 amended: provided every fetch returns a per-key ascending,
in-window response over distinct keys, the record stream of one
device is non-decreasing in ts for each key separately (the
cross-key claim fails, see the counterexample: within a window the
records are grouped by key in response order, not globally sorted). -/
theorem c7_per_key_order (c : Client) (did : Option String) (keys : String)
    (lim : Nat) (W endTs : Int) (hW : 0 < W)
    (hresp : ∀ s e resp, c.getTimeseries did keys s e lim = .ok resp →
      (resp.map Prod.fst).Nodup ∧
      ∀ p ∈ resp, List.Sorted (· ≤ ·) (p.2.map DataPoint.ts) ∧
        ∀ dp ∈ p.2, s ≤ dp.ts ∧ dp.ts < e) :
    ∀ (fuel : Nat) (cur : Int) (k : String),
      List.Sorted (· ≤ ·)
        ((exportWindows c did keys lim W endTs cur fuel).filterMap
          (rowTsOfKey k)) := by
  have main : ∀ (fuel : Nat) (cur : Int) (k : String),
      List.Sorted (· ≤ ·)
        ((exportWindows c did keys lim W endTs cur fuel).filterMap
          (rowTsOfKey k)) ∧
      ∀ t ∈ (exportWindows c did keys lim W endTs cur fuel).filterMap
          (rowTsOfKey k), cur ≤ t := by
    intro fuel
    induction fuel with
    | zero =>
      intro cur k
      exact ⟨List.sorted_nil, by intro t ht; cases ht⟩
    | succ fuel ih =>
      intro cur k
      by_cases hcur : cur < endTs
      · have hce : cur ≤ min (cur + W) endTs := by omega
        simp only [exportWindows, hcur, if_true, List.filterMap_append]
        cases hOUT : fetch_timeseries c did keys cur
            (min (cur + W) endTs) lim with
        | error err =>
          simp only [List.filterMap_cons,
            show rowTsOfKey k (Ev.fetch did keys cur (min (cur + W) endTs)) =
              Option.none from rfl, List.filterMap_nil, List.nil_append]
          obtain ⟨hs, hb⟩ := ih (min (cur + W) endTs) k
          exact ⟨hs, fun t ht => le_trans hce (hb t ht)⟩
        | ok resp =>
          rw [fetch_timeseries_eq] at hOUT
          obtain ⟨hnd, hsb⟩ := hresp cur (min (cur + W) endTs) resp hOUT
          simp only [List.filterMap_cons,
            show rowTsOfKey k (Ev.fetch did keys cur (min (cur + W) endTs)) =
              Option.none from rfl]
          rw [rowsOfResponse_key_flatten]
          obtain ⟨hws, hwb⟩ :=
            response_key_sorted k cur (min (cur + W) endTs) resp hnd hsb
          obtain ⟨hrs, hrb⟩ := ih (min (cur + W) endTs) k
          constructor
          · rw [List.Sorted, List.pairwise_append]
            refine ⟨hws, hrs, ?_⟩
            intro x hx y hy
            have hx2 := (hwb x hx).2
            have hy2 := hrb y hy
            omega
          · intro t ht
            rcases List.mem_append.mp ht with h1 | h2
            · exact (hwb t h1).1
            · exact le_trans hce (hrb t h2)
      · have hnil : exportWindows c did keys lim W endTs cur (fuel + 1) = [] := by
          simp [exportWindows, hcur]
        rw [hnil]
        exact ⟨List.sorted_nil, by intro t ht; cases ht⟩
  exact fun fuel cur k => (main fuel cur k).1

/-- A client answering the window `[0, 1000)` with one ascending
in-window key series and every other window with nothing. -/
def c7wclient : Client where
  getTenantDevice := fun _ => some "id1"
  getTimeseriesKeys := fun _ => .ok ["k1"]
  getTimeseries := fun _ _ s e _ =>
    if s = 0 ∧ e = 1000 then .ok [("k1", [⟨100, "1"⟩, ⟨900, "2"⟩])]
    else .ok []
  saveEntityTelemetry := fun _ _ _ => .ok ()

/-- C7 witness: the per-key record stream of a concrete run is
non-decreasing. -/
theorem c7_per_key_order_witness :
    List.Sorted (· ≤ ·)
      ((exportWindows c7wclient (some "id1") "k1" 10 60000 1000 0
        2).filterMap (rowTsOfKey "k1")) := by
  apply c7_per_key_order c7wclient (some "id1") "k1" 10 60000 1000
    (by norm_num)
  intro s e resp h
  simp only [c7wclient] at h
  by_cases hc : s = 0 ∧ e = 1000
  · rw [if_pos hc] at h
    have hresp : resp = [("k1", [⟨100, "1"⟩, ⟨900, "2"⟩])] := by
      injection h with h2
      exact h2.symm
    subst hresp
    refine ⟨by decide, ?_⟩
    intro p hp
    simp only [List.mem_singleton] at hp
    subst hp
    refine ⟨by decide, ?_⟩
    intro dp hdp
    rw [hc.1, hc.2]
    rcases List.mem_cons.mp hdp with hd | hd
    · subst hd; exact ⟨by norm_num, by norm_num⟩
    · simp only [List.mem_singleton] at hd
      subst hd
      exact ⟨by norm_num, by norm_num⟩
  · rw [if_neg hc] at h
    have hresp : resp = [] := by
      injection h with h2
      exact h2.symm
    subst hresp
    exact ⟨by simp, by intro p hp; cases hp⟩

theorem exportWindows_no_rows (c : Client) (keys : String) (lim : Nat)
    (W endTs : Int)
    (hf : ∀ a b, c.getTimeseries Option.none keys a b lim = .error ()) :
    ∀ (fuel : Nat) (cur : Int),
      (exportWindows c Option.none keys lim W endTs cur fuel).filterMap
        evRow = [] := by
  intro fuel
  induction fuel with
  | zero => intro cur; rfl
  | succ fuel ih =>
    intro cur
    by_cases hcur : cur < endTs
    · simp only [exportWindows, hcur, if_true]
      rw [fetch_timeseries_eq, hf cur (min (cur + W) endTs),
        List.filterMap_append]
      simp only [List.filterMap_cons,
        show evRow (Ev.fetch Option.none keys cur (min (cur + W) endTs)) =
          Option.none from rfl, List.filterMap_nil, List.nil_append]
      exact ih _
    · simp [exportWindows, hcur]

theorem exportDevices_no_rows (c : Client) (s e W : Int) (lim fuel : Nat)
    (hres : ∀ name, c.getTenantDevice name = Option.none)
    (hf : ∀ ks a b, c.getTimeseries Option.none ks a b lim = .error ()) :
    ∀ (ds : List String) (k : String), k ≠ "" →
    ((exportDevices c s e W lim fuel ds (some k)).1.filterMap evRow) = [] := by
  intro ds
  induction ds with
  | nil => intro k _; rfl
  | cons name rest ih =>
    intro k hk
    unfold exportDevices
    rw [if_neg (by simpa using hk)]
    simp only [List.filterMap_cons]
    have hdid : get_device_id c name = Option.none := hres name
    rw [show evRow (Ev.resolve name (get_device_id c name)) =
      Option.none from rfl, List.filterMap_append, hdid,
      exportWindows_no_rows c _ lim W e (hf _) fuel s, ih k hk]
    rfl

/-- C9: every export run — any client, any arguments, with or without
an explicit key list — writes through a file opened in overwrite mode,
so the prior file contents never reach the result (the
`exportFileContents` model of mode `w` discards them), and the header
event is the very first event of the run, before any device resolution
or remote call.  Moreover a run that emits no records (for instance
one with an explicit key list in which no device resolves and every
fetch fails) still leaves a file of exactly the header row. -/
theorem c9_header_and_truncation (c : Client) (s e : Int)
    (names : String) (keys : Option String) (lim : Nat) (tl : Int) :
    (∀ prior, exportFileContents prior c s e names keys lim tl =
      exportFileContents [] c s e names keys lim tl) ∧
    ((export_timeseries c s e names keys lim tl).1.head? =
      some Ev.header) ∧
    (∀ k : String, k ≠ "" →
      (∀ name, c.getTenantDevice name = Option.none) →
      (∀ ks a b, c.getTimeseries Option.none ks a b lim = .error ()) →
      exportFileContents [] c s e names (some k) lim tl = [headerCells]) := by
  refine ⟨fun _ => rfl, rfl, ?_⟩
  intro k hk hres hfetch
  unfold exportFileContents export_timeseries
  simp only [List.filterMap_cons,
    show evRow Ev.header = some headerCells from rfl]
  rw [exportDevices_no_rows c s e (tl * 60 * 1000) lim ((e - s).toNat + 1)
    hres hfetch (splitComma names) k hk]

/-- A client on which nothing resolves and every fetch fails. -/
def c9client : Client where
  getTenantDevice := fun _ => Option.none
  getTimeseriesKeys := fun _ => .error ()
  getTimeseries := fun _ _ _ _ _ => .error ()
  saveEntityTelemetry := fun _ _ _ => .error ()

/-- C9 witness: with prior contents in place and every device failing,
the resulting file is exactly the header row. -/
theorem c9_header_witness :
    exportFileContents [["old", "junk"]] c9client 0 100 "d1,d2"
      (some "k") 5 1 = [headerCells] := by
  have h := c9_header_and_truncation c9client 0 100 "d1,d2" (some "k") 5 1
  rw [h.1 [["old", "junk"]]]
  exact h.2.2 "k" (by decide) (fun _ => rfl) (fun _ _ _ => rfl)

/-- C1 counterexample: the round-trip law fails for the json tag and
for NaN doubles.  For the input `["a\"b"]`, infer yields a json list
holding the string `a"b`; Python `str` renders it as `['a"b']`, whose
quote-normalized form `["a"b"]` (computed during the json decode) no
longer parses — the record is dropped instead of yielding the value.
For the input `nan`, decode does return a NaN double, but Python `==`
on NaN is false, so the value does not compare equal to itself. -/
theorem c1_roundtrip_cex :
    infer_type_and_convert "[\"a\\\"b\"]" =
      (.list [.str "a\"b"], "json") ∧
    decodeValue (pyStr (.list [.str "a\"b"])) "json" = .drop ∧
    infer_type_and_convert "nan" = (.float .nan, "double") ∧
    decodeValue (pyStr (.float .nan)) "double" = .ok (.float .nan) ∧
    pyEq (.float .nan) (.float .nan) = false :=
  ⟨rfl, rfl, rfl, rfl, rfl⟩

/-- C1 amended: the round-trip law holds for the tags boolean, int,
double and string, except that a NaN double never compares equal to
itself; for the json tag the law fails in general (see the
counterexample: quote characters inside strings break the re-parse,
and `str()` renders `True`/`False`/`None` in Python spelling, which
is not JSON).  Equality is Python `==` (`pyEq`): for doubles the
re-parsed value may be a different exact representation of the same
number (`5.0` re-parses as fifty tenths). -/
theorem c1_roundtrip_amended (t : String) (v : PyVal) (ty : String)
    (hinfer : infer_type_and_convert t = (v, ty)) (hjson : ty ≠ "json")
    (hnan : v ≠ .float .nan) :
    ∃ w, decodeValue (pyStr v) ty = .ok w ∧ pyEq w v = true := by
  unfold infer_type_and_convert at hinfer
  by_cases h1 : pyLower t = "true"
  · rw [if_pos h1] at hinfer
    injection hinfer with hv hty
    subst hv
    subst hty
    exact ⟨.bool true, rfl, rfl⟩
  · rw [if_neg h1] at hinfer
    by_cases h2 : pyLower t = "false"
    · rw [if_pos h2] at hinfer
      injection hinfer with hv hty
      subst hv
      subst hty
      exact ⟨.bool false, rfl, rfl⟩
    · rw [if_neg h2] at hinfer
      cases hInt : pyInt t with
      | some n =>
        rw [hInt] at hinfer
        injection hinfer with hv hty
        subst hv
        subst hty
        refine ⟨.int n, ?_, ?_⟩
        · show decodeValue (intRenderS n) "int" = .ok (.int n)
          unfold decodeValue
          rw [if_neg (show ¬ ("int" : String) = "boolean" by decide),
            if_pos (show ("int" : String) = "int" from rfl)]
          rw [show pyInt (intRenderS n) = pyIntC (intRender n) from rfl,
            pyIntC_intRender n]
        · show decide (n = n) = true
          simp
      | none =>
        rw [hInt] at hinfer
        cases hFloat : pyFloat t with
        | some f =>
          rw [hFloat] at hinfer
          injection hinfer with hv hty
          subst hv
          subst hty
          have hfne : f ≠ .nan := by
            intro hcon
            subst hcon
            exact hnan rfl
          obtain ⟨g, hg, hgf⟩ := pyFloatC_floatRender f hfne
          refine ⟨.float g, ?_, ?_⟩
          · show decodeValue (String.mk (floatRender f)) "double" =
              .ok (.float g)
            unfold decodeValue
            rw [if_neg (show ¬ ("double" : String) = "boolean" by decide),
              if_neg (show ¬ ("double" : String) = "int" by decide),
              if_pos (show ("double" : String) = "double" from rfl)]
            rw [show pyFloat (String.mk (floatRender f)) =
              pyFloatC (floatRender f) from rfl, hg]
          · show pfloatEq g f = true
            exact hgf
        | none =>
          rw [hFloat] at hinfer
          cases hJson : pyJson (quoteNormalize t) with
          | some jv =>
            rw [hJson] at hinfer
            injection hinfer with hv hty
            subst hty
            exact absurd rfl hjson
          | none =>
            rw [hJson] at hinfer
            injection hinfer with hv hty
            subst hv
            subst hty
            refine ⟨.str t, ?_, ?_⟩
            · show decodeValue t "string" = .ok (.str t)
              unfold decodeValue
              rw [if_neg (show ¬ ("string" : String) = "boolean" by decide),
                if_neg (show ¬ ("string" : String) = "int" by decide),
                if_neg (show ¬ ("string" : String) = "double" by decide),
                if_neg (show ¬ ("string" : String) = "json" by decide)]
            · show decide (t = t) = true
              simp

/-- C1 witness: the int tag round-trips on a concrete value. -/
theorem c1_roundtrip_witness :
    ∃ w, decodeValue (pyStr (PyVal.int 42)) "int" = .ok w ∧
      pyEq w (PyVal.int 42) = true :=
  c1_roundtrip_amended "42" (.int 42) "int" (by rfl) (by decide)
    (fun h => PyVal.noConfusion h)

/-- C2 witness: a concrete 150-second range with one-minute windows is
non-empty and its last window ends at the requested end. -/
theorem c2_window_partition_witness :
    windows 0 150000 60000 ≠ [] ∧
    ∀ hne : windows 0 150000 60000 ≠ [],
      ((windows 0 150000 60000).getLast hne).2 = 150000 :=
  (c2_window_partition 0 150000 1 60000 rfl (by norm_num)
    (by norm_num)).2.2.2.2

end TbMigrator
